import Mathlib

/-!
Verification of the TorchData combinator and graph-utility layer.

The definitions below are shallow embeddings of
`torchdata/datapipes/iter/util/combining.py` and
`torchdata/dataloader2/graph/utils.py`.  Python iterators become Lean lists,
the insertion-ordered buffer (`OrderedDict`) becomes an association list that
appends at the tail, and the external cleanup collaborator (`janitor`) is
modelled as a recorder of released items.  Ghost instrumentation fields
(peak buffer length, evicted entries, emitted warnings, ...) observe the
execution without changing it.
-/

namespace TorchData

/-- Errors raised while iterating `IterKeyZipperIterDataPipe.__iter__`:
`bufferError` models the `BufferError` raised when the reference stream is
exhausted before a match, `dupKeyError` models the `ValueError` raised on a
duplicate reference key. -/
inductive ZipError where
  | bufferError
  | dupKeyError
deriving DecidableEq, Repr

/-- A yielded element of the keyed joiner: `keyed` when `keep_key` is set,
`plain` otherwise. -/
inductive ZipOut (κ γ : Type) where
  | plain (g : γ)
  | keyed (k : κ) (g : γ)
deriving DecidableEq, Repr

/-- State returned by the inner `while key not in self.buffer` loop of
`IterKeyZipperIterDataPipe.__iter__`.  `ref` is the unconsumed suffix of the
reference stream and `buffer` the insertion-ordered buffer.  The fields
`warns`, `evicted`, `dropped` and `peak` are ghost instrumentation: number of
warnings emitted, entries evicted in FIFO order, reference items consumed but
discarded by the duplicate-key error, and the largest buffer length observed
after an insertion. -/
structure FillSt (κ β : Type) where
  ref : List β
  buffer : List (κ × β)
  warnFlag : Bool
  warns : Nat
  evicted : List (κ × β)
  dropped : List β
  peak : Nat
  error : Option ZipError
deriving DecidableEq, Repr

/-- `self.buffer_size is not None and len(self.buffer) > self.buffer_size`
(combining.py line 103): whether an insertion is preceded by an eviction. -/
def evictCond (bufSize : Option Nat) (len : Nat) : Bool :=
  match bufSize with
  | some n => decide (n < len)
  | none => false

/-- `OrderedDict.pop(k)`: remove the entry with key `k`, keeping the order of
the remaining entries, and return its value. -/
def bufPop [DecidableEq κ] (k : κ) : List (κ × β) → Option (β × List (κ × β))
  | [] => none
  | (k0, v) :: rest =>
    if k0 = k then some (v, rest)
    else (bufPop k rest).map (fun p => (p.1, (k0, v) :: p.2))

/-- The `while key not in self.buffer` loop of
`IterKeyZipperIterDataPipe.__iter__` (combining.py lines 92-111): pull from
the reference stream until `key` is buffered; fail on exhaustion
(`BufferError`) or on a duplicate reference key (`ValueError`); when the
buffer length exceeds `bufSize`, evict the oldest entry (`popitem(last=False)`)
and emit a warning the first time this happens in the pass. -/
def zipFill [DecidableEq κ] (refKeyFn : β → κ) (bufSize : Option Nat) (key : κ) :
    List β → List (κ × β) → Bool → Nat → List (κ × β) → List β → Nat → FillSt κ β
  | ref, buf, warnFlag, warns, evicted, dropped, peak =>
    if key ∈ buf.map Prod.fst then
      ⟨ref, buf, warnFlag, warns, evicted, dropped, peak, none⟩
    else
      match ref with
      | [] => ⟨[], buf, warnFlag, warns, evicted, dropped, peak, some ZipError.bufferError⟩
      | r :: rest =>
        let rk := refKeyFn r
        if rk ∈ buf.map Prod.fst then
          ⟨rest, buf, warnFlag, warns, evicted, dropped ++ [r], peak, some ZipError.dupKeyError⟩
        else
          let doEvict := evictCond bufSize buf.length
          let warnsNew := if doEvict && warnFlag then warns + 1 else warns
          let warnFlagNew := if doEvict && warnFlag then false else warnFlag
          let evictedNew := if doEvict then evicted ++ buf.take 1 else evicted
          let bufAfter := if doEvict then buf.drop 1 else buf
          let bufNew := bufAfter ++ [(rk, r)]
          zipFill refKeyFn bufSize key rest bufNew warnFlagNew warnsNew evictedNew dropped
            (max peak bufNew.length)

/-- Result of running `IterKeyZipperIterDataPipe.__iter__` on finite streams.
`outputs` are the yielded values, `matched` the reference items consumed by a
successful match, `refRest` the unconsumed suffix of the reference stream,
and `buffer` the buffer at loop exit, before the `finally` cleanup; the
remaining fields are the same ghost instrumentation as in `FillSt`.  A
consumer that abandons the iterator after `j` yields is modelled by running
on the length-`j` prefix of the primary stream: in both cases the pipeline
stops pulling after the `j`-th yield and the `finally` cleanup runs on the
buffer left at that point. -/
structure ZipRun (κ β γ : Type) where
  outputs : List (ZipOut κ γ)
  matched : List β
  refRest : List β
  buffer : List (κ × β)
  warnFlag : Bool
  warns : Nat
  evicted : List (κ × β)
  dropped : List β
  peak : Nat
  error : Option ZipError
deriving DecidableEq, Repr

/-- The outer `for data in self.source_datapipe` loop of
`IterKeyZipperIterDataPipe.__iter__` (combining.py lines 90-116). -/
def zipLoop [DecidableEq κ] (keyFn : α → κ) (refKeyFn : β → κ) (merge : α → β → γ)
    (keepKey : Bool) (bufSize : Option Nat) :
    List α → List β → List (κ × β) → Bool → Nat → List (κ × β) → List β → Nat →
    List (ZipOut κ γ) → List β → ZipRun κ β γ
  | [], ref, buf, warnFlag, warns, evicted, dropped, peak, outs, matched =>
    ⟨outs, matched, ref, buf, warnFlag, warns, evicted, dropped, peak, none⟩
  | a :: as, ref, buf, warnFlag, warns, evicted, dropped, peak, outs, matched =>
    let key := keyFn a
    let f := zipFill refKeyFn bufSize key ref buf warnFlag warns evicted dropped peak
    match f.error with
    | some e =>
      ⟨outs, matched, f.ref, f.buffer, f.warnFlag, f.warns, f.evicted, f.dropped, f.peak, some e⟩
    | none =>
      match bufPop key f.buffer with
      | some (b, buf2) =>
        let out := if keepKey then ZipOut.keyed key (merge a b) else ZipOut.plain (merge a b)
        zipLoop keyFn refKeyFn merge keepKey bufSize as f.ref buf2 f.warnFlag f.warns
          f.evicted f.dropped f.peak (outs ++ [out]) (matched ++ [b])
      | none =>
        -- unreachable: `zipFill` only returns without error once `key` is buffered
        ⟨outs, matched, f.ref, f.buffer, f.warnFlag, f.warns, f.evicted, f.dropped, f.peak, none⟩

/-- One full pass of `IterKeyZipperIterDataPipe.__iter__`, starting from the
empty buffer, the fresh reference iterator, and `warn_once_flag = True`.
The source's optional `merge_fn` defaulting to tupling is obtained by
instantiating `merge` with `Prod.mk`. -/
def iterKeyZipRun [DecidableEq κ] (keyFn : α → κ) (refKeyFn : β → κ) (merge : α → β → γ)
    (keepKey : Bool) (bufSize : Option Nat) (source : List α) (ref : List β) : ZipRun κ β γ :=
  zipLoop keyFn refKeyFn merge keepKey bufSize source ref [] true 0 [] [] 0 [] []

/-- The `finally` block of `IterKeyZipperIterDataPipe.__iter__` (combining.py
lines 117-123): every residual buffered value is handed to the cleanup
collaborator and the buffer is cleared.  The external `janitor` hook is
modelled from the spec as a recorder: the first component lists the released
items, the second is the buffer after `clear()`. -/
def bufferRelease (buf : List (κ × β)) : List β × List (κ × β) :=
  (buf.map Prod.snd, [])

/-- `IterKeyZipperIterDataPipe.__len__`: the length of the primary stream. -/
def iterKeyZipLen (source : List α) : Nat := source.length

/-- Result of `MapKeyZipperIterDataPipe.__iter__`: the yielded values, and on
a failed lookup the offending item together with the key it was mapped to
(the data carried by the raised `KeyError`). -/
structure MapZipRun (κ α γ : Type) where
  outputs : List (ZipOut κ γ)
  error : Option (α × κ)
deriving DecidableEq, Repr

/-- Modelled from the spec: the secondary random-access source
(`MapDataPipe`, e.g. `SequenceWrapper` over a mapping, which is not part of
the two source files) is a key-indexed lookup; `self.map_datapipe[key]`
returns the stored item or fails for an absent key. -/
def mapGetItem [DecidableEq κ] (m : List (κ × μ)) (k : κ) : Option μ :=
  (m.find? (fun p => decide (p.1 = k))).map Prod.snd

/-- The `for item in self.source_iterdatapipe` loop of
`MapKeyZipperIterDataPipe.__iter__` (combining.py lines 225-236): one direct
lookup per item, `KeyError` on a miss, merge and yield on a hit. -/
def mapZipLoop [DecidableEq κ] (keyFn : α → κ) (merge : α → μ → γ) (keepKey : Bool)
    (m : List (κ × μ)) : List α → List (ZipOut κ γ) → MapZipRun κ α γ
  | [], outs => ⟨outs, none⟩
  | a :: as, outs =>
    let key := keyFn a
    match mapGetItem m key with
    | none => ⟨outs, some (a, key)⟩
    | some v =>
      let out := if keepKey then ZipOut.keyed key (merge a v) else ZipOut.plain (merge a v)
      mapZipLoop keyFn merge keepKey m as (outs ++ [out])

/-- One full pass of `MapKeyZipperIterDataPipe.__iter__`. -/
def mapZipRun [DecidableEq κ] (keyFn : α → κ) (merge : α → μ → γ) (keepKey : Bool)
    (m : List (κ × μ)) (source : List α) : MapZipRun κ α γ :=
  mapZipLoop keyFn merge keepKey m source []

/-- `MapKeyZipperIterDataPipe.__len__`: the length of the primary stream. -/
def mapZipLen (source : List α) : Nat := source.length

/-- `_RoundRobinDemultiplexerIterDataPipe.get_length_by_instance`
(combining.py lines 296-299), written exactly as in the source:
`avg_length = n // num_instances`, plus one when
`n - avg_length * num_instances > instance_id`. -/
def roundRobinGetLength (n numInstances instanceId : Nat) : Nat :=
  let avgLength := n / numInstances
  if n - avgLength * numInstances > instanceId then avgLength + 1 else avgLength

/-- `_RoundRobinDemultiplexerIterDataPipe._round_robin_fn`: an enumerated
item `(idx, data)` is routed to branch `idx % num_instances`. -/
def roundRobinFn (numInstances : Nat) (p : Nat × α) : Nat := p.1 % numInstances

/-- `_drop_index`: strip the index added by `datapipe.enumerate()`. -/
def dropIndexFn (p : Nat × α) : α := p.2

/-- Modelled from the spec: the shared demultiplexer container
(`_DemultiplexerIterDataPipe`, an external collaborator) delivers to branch
`i`, in stream order, exactly the enumerated items that the classifier
`_round_robin_fn` maps to `i`; the child pipe then drops the index. -/
def roundRobinBranch (source : List α) (numInstances i : Nat) : List α :=
  (source.enum.filter (fun p => decide (roundRobinFn numInstances p = i))).map dropIndexFn

/-!  The deep attribute rewriter `_assign_attr` (graph/utils.py lines
162-215).  Python objects reachable from a pipe attribute are modelled by
`HVal`; DataPipe objects live in a `Heap` indexed by their `id()`, and a
field value holding a DataPipe is a `ref` to that id, so `obj is old_dp`
becomes equality of ids.  Mutable containers (dict, list, set) are inline
values: an in-place mutation is returned as the updated value to the caller
holding the slot.  The rewriter returns the pair (updated value, Python
return value): `some v` instructs the caller to overwrite the slot with `v`,
`none` means no substitution at this slot. -/

/-- A Python value reachable from a pipe attribute, as inspected by
`_assign_attr`: a DataPipe reference (identity = heap id), a dict with
string keys, a tuple, a list, a set, or an opaque non-container atom. -/
inductive HVal where
  | ref (pid : Nat)
  | dictV (entries : List (String × HVal))
  | tupV (elems : List HVal)
  | listV (elems : List HVal)
  | setV (elems : List HVal)
  | atomV (tag : Nat)

/-- The Python equality test `o == old_dp` for a DataPipe element (DataPipes
use default object equality, i.e. identity). -/
def isRefOf (v : HVal) (p : Nat) : Bool :=
  match v with
  | HVal.ref q => q == p
  | _ => false

mutual
/-- `_assign_attr(obj, old_dp, new_dp)` with the default `inner_dp = False`
(graph/utils.py lines 162-215): `obj is old` signals a substitution upward;
a DataPipe that is not `old` is an atomic boundary (no recursion when
`inner_dp` is false); a dict scans its values and overwrites the first slot
whose recursive call signals, then stops; a tuple tests every element and is
rebuilt whenever at least one element changed, every changed slot receiving
`new_dp` (line 190, the "Special case"); a list overwrites the first
signalling index in place and stops; a set removes `old` and inserts `new`
if some element signals (the model removes `old` when present, where Python
would raise KeyError if it were absent — a path no claim exercises). -/
def assignAttrF (old new : Nat) : HVal → HVal × Option HVal
  | HVal.ref p =>
    if p = old then (HVal.ref p, some (HVal.ref new))
    else (HVal.ref p, none)
  | HVal.dictV entries => (HVal.dictV (assignAttrDictF old new entries), none)
  | HVal.tupV elems =>
    let r := assignAttrTupF old new elems
    if r.2 then (HVal.tupV elems, some (HVal.tupV r.1)) else (HVal.tupV elems, none)
  | HVal.listV elems => (HVal.listV (assignAttrListF old new elems), none)
  | HVal.setV elems =>
    let r := assignAttrSetF old new elems
    if r.2 then
      (HVal.setV ((r.1.filter (fun o => !(isRefOf o old))) ++ [HVal.ref new]), none)
    else (HVal.setV r.1, none)
  | HVal.atomV t => (HVal.atomV t, none)

/-- The dict branch (lines 175-181), also used for a pipe object's
`__dict__` (lines 169-174): recursive calls pass `inner_dp = False`;
the first value whose call signals is overwritten and the scan stops. -/
def assignAttrDictF (old new : Nat) : List (String × HVal) → List (String × HVal)
  | [] => []
  | (k, v) :: rest =>
    let r := assignAttrF old new v
    match r.2 with
    | some nv => (k, nv) :: rest
    | none => (k, r.1) :: assignAttrDictF old new rest

/-- The tuple branch loop (lines 184-192) at `inner_dp = False`: no break;
every signalling element contributes `new_dp` to the rebuilt tuple. -/
def assignAttrTupF (old new : Nat) : List HVal → List HVal × Bool
  | [] => ([], false)
  | o :: os =>
    let r := assignAttrF old new o
    let rest := assignAttrTupF old new os
    match r.2 with
    | some _ => (HVal.ref new :: rest.1, true)
    | none => (r.1 :: rest.1, rest.2)

/-- The list branch (lines 197-203) at `inner_dp = False`: overwrite the
first signalling index, then break. -/
def assignAttrListF (old new : Nat) : List HVal → List HVal
  | [] => []
  | o :: os =>
    let r := assignAttrF old new o
    match r.2 with
    | some nv => nv :: os
    | none => r.1 :: assignAttrListF old new os

/-- The set branch scan (lines 204-213) at `inner_dp = False`: test elements
until one signals. -/
def assignAttrSetF (old new : Nat) : List HVal → List HVal × Bool
  | [] => ([], false)
  | o :: os =>
    let r := assignAttrF old new o
    match r.2 with
    | some _ => (r.1 :: os, true)
    | none =>
      let rest := assignAttrSetF old new os
      (r.1 :: rest.1, rest.2)
end

/-!  The mutable side of the graph rewrite (`replace_dp`, graph/utils.py
lines 82-97 and 132-139).  A DataPipe object on the Python heap is its
`__dict__`: an insertion-ordered field table whose values may hold
references to predecessor pipes, directly or nested inside containers.
The references occurring in a value, in scan order, are what the external
traversal discovers as that pipe's predecessors. -/

mutual
def valRefs : HVal → List Nat
  | HVal.ref p => [p]
  | HVal.atomV _ => []
  | HVal.dictV es => dictRefs es
  | HVal.tupV es => elemsRefs es
  | HVal.listV es => elemsRefs es
  | HVal.setV es => elemsRefs es

def dictRefs : List (String × HVal) → List Nat
  | [] => []
  | (_, v) :: rest => valRefs v ++ dictRefs rest

def elemsRefs : List HVal → List Nat
  | [] => []
  | v :: rest => valRefs v ++ elemsRefs rest
end

/-- A DataPipe object on the heap: its `__dict__`. -/
structure PNode where
  fields : List (String × HVal)

/-- The pipe identities a pipe's attributes reference, in discovery order:
its predecessor edges as the traversal sees them. -/
def nodeRefs (n : PNode) : List Nat :=
  dictRefs n.fields

/-- `_assign_attr(recv, old_dp, new_dp, inner_dp=True)` on a receiver pipe
that is not `old` itself (lines 165-174): scan the receiver's `__dict__` in
order, overwrite the first slot whose recursive call signals, then stop;
the recursive calls pass `inner_dp = False`. -/
def assignAttrT (old new : Nat) (n : PNode) : PNode :=
  PNode.mk (assignAttrDictF old new n.fields)

/-- The Python heap: pipe identity to pipe object. -/
abbrev Heap : Type :=
  List (Nat × PNode)

/-- The aggregate heap effect of `replace_dp`'s rewriting loop (lines 94-95
driving `_replace_dp`, lines 132-139): every receiver whose predecessor set
contains `old`'s identity gets `_assign_attr(recv, old, new, inner_dp=True)`.
The pass is modelled as that rewrite applied once to every node: applying it
to a node without a reference to `old` is a no-op (`assignAttrT_no_ref`
below), and under the spec's single-reference-site assumption a repeated
visit along a second graph path finds no remaining reference to `old`, so it
is a no-op as well. -/
def replacePass (old new : Nat) (h : Heap) : Heap :=
  h.map (fun e => (e.1, assignAttrT old new e.2))

/-- An element of a flat container: a direct pipe reference or an atom. -/
def shallowVal : HVal → Bool
  | HVal.ref _ => true
  | HVal.atomV _ => true
  | _ => false

/-!  Field shapes the round trip is proved for: direct references and atoms,
dicts and lists nested to any depth, and tuples whose elements are direct
references or atoms — a tuple may itself sit inside a list or dict (those
branches assign the rebuilt tuple back, lines 179 and 201), but not inside
another tuple, where line 190 appends the bare `new` pipe in place of the
rebuilt inner tuple and flattens it (the counterexample).  Two shapes stay
outside the proved fragment without being wrong in the source: a mutable
container inside a tuple (CPython mutates it in place through the enclosing
unrebuilt tuple, an aliasing effect the pure value embedding keeps no handle
for), and sets (a rebuilt set has a different element order in the ordered
model, unobservable to Python's unordered sets). -/
mutual
def fieldOK : HVal → Bool
  | HVal.ref _ => true
  | HVal.atomV _ => true
  | HVal.dictV es => dictOK es
  | HVal.tupV es => es.all shallowVal
  | HVal.listV es => listOK es
  | HVal.setV _ => false

def dictOK : List (String × HVal) → Bool
  | [] => true
  | (_, v) :: rest => fieldOK v && dictOK rest

def listOK : List HVal → Bool
  | [] => true
  | v :: rest => fieldOK v && listOK rest
end

/-!  Graph queries `find_dps` and `list_dps` (graph/utils.py lines 16-78).
A DataPipe is identified by its `id()`; its runtime type is modelled as a
method-resolution-order list of type tags whose head is the exact runtime
type, and it carries the list of its predecessor pipes, which the external
`traverse_dps` collaborator inspects.  A `DataPipeGraph` is an
insertion-ordered mapping from id to (pipe, predecessor subgraph). -/

/-- A DataPipe: identity, runtime type (MRO, head = exact type), and the
predecessor pipes its attributes reference. -/
inductive DP where
  | mk (pid : Nat) (mro : List Nat) (preds : List DP)

def DP.pid : DP → Nat
  | DP.mk p _ _ => p

def DP.mro : DP → List Nat
  | DP.mk _ m _ => m

def DP.preds : DP → List DP
  | DP.mk _ _ ps => ps

/-- `type(dp)`: the exact runtime type of a pipe (head of its MRO);
`isinstance` would instead test membership anywhere in the MRO. -/
def DP.exactTy (d : DP) : Option Nat := d.mro.head?

mutual
/-- `DataPipeGraph`: insertion-ordered entries id ↦ (pipe, subgraph). -/
inductive Graph where
  | mk (entries : List GEntry)
/-- One graph entry `dp_id: (dp, src_graph)`. -/
inductive GEntry where
  | mk (pid : Nat) (dp : DP) (sub : Graph)
end

def Graph.entries : Graph → List GEntry
  | Graph.mk es => es

def GEntry.pid : GEntry → Nat
  | GEntry.mk p _ _ => p

def GEntry.dp : GEntry → DP
  | GEntry.mk _ d _ => d

def GEntry.sub : GEntry → Graph
  | GEntry.mk _ _ s => s

mutual
/-- All entries appearing anywhere in a graph, top level included. -/
def Graph.allEntries : Graph → List GEntry
  | Graph.mk es => allEntriesList es
def allEntriesList : List GEntry → List GEntry
  | [] => []
  | GEntry.mk pid dp sub :: es =>
    GEntry.mk pid dp sub :: (Graph.allEntries sub ++ allEntriesList es)
end

mutual
/-- Modelled from the spec: the predecessor subgraph the external
`traverse_dps` collaborator produces for a pipe — one entry per direct
predecessor, each with its own recursively traversed subgraph. -/
def subgraphOf : DP → Graph
  | DP.mk _ _ preds => Graph.mk (subgraphList preds)
def subgraphList : List DP → List GEntry
  | [] => []
  | q :: qs => GEntry.mk q.pid q (subgraphOf q) :: subgraphList qs
end

/-- Modelled from the spec: `traverse_dps(pipe)` — the graph of a terminal
pipe has exactly one top-level entry, the pipe itself. -/
def traverse_dps (p : DP) : Graph :=
  Graph.mk [GEntry.mk p.pid p (subgraphOf p)]

mutual
/-- The recursive `helper` closure of `find_dps` (graph/utils.py lines
24-31), threading the accumulated `dps` list and the visited-id `cache`. -/
def findHelper (ty : Nat) : Graph → List DP × List Nat → List DP × List Nat
  | Graph.mk entries, acc => findHelperList ty entries acc
def findHelperList (ty : Nat) : List GEntry → List DP × List Nat → List DP × List Nat
  | [], acc => acc
  | GEntry.mk pid dp sub :: rest, acc =>
    if pid ∈ acc.2 then findHelperList ty rest acc
    else
      let cache1 := acc.2 ++ [pid]
      let dps1 := if dp.exactTy = some ty then acc.1 ++ [dp] else acc.1
      findHelperList ty rest (findHelper ty sub (dps1, cache1))
end

/-- `find_dps(graph, dp_type)` (graph/utils.py lines 16-35): pre-order DFS
guarded by a visited-id cache, collecting pipes whose exact runtime type
(`type(dp) is dp_type`, deliberately not `isinstance`) is the requested
one. -/
def find_dps (graph : Graph) (dp_type : Nat) : List DP :=
  (findHelper dp_type graph ([], [])).1

/-- The enqueue step shared by the initialization (lines 64-68) and the BFS
loop body (lines 73-76) of `list_dps`: append each entry whose id is not yet
cached, caching it at enqueue time. -/
def enqueueNew : List GEntry → List GEntry → List Nat → List GEntry × List Nat
  | [], q, cache => (q, cache)
  | GEntry.mk pid dp sub :: rest, q, cache =>
    if pid ∈ cache then enqueueNew rest q cache
    else enqueueNew rest (q ++ [GEntry.mk pid dp sub]) (cache ++ [pid])

/-- The `while len(q) > 0` loop of `list_dps` (graph/utils.py lines 70-76).
The fuel argument is a modelling artifact for termination only: each
iteration pops one queue element and every enqueued element carries a
freshly cached id, so any fuel at least `q.length` plus the number of
not-yet-cached entry ids is enough and the result is fuel-independent
beyond that bound. -/
def listLoop (fuel : Nat) (q : List GEntry) (cache : List Nat) (dps : List DP) :
    List DP :=
  match fuel with
  | 0 => dps
  | fuel + 1 =>
    match q with
    | [] => dps
    | GEntry.mk _ dp sub :: qrest =>
      let step := enqueueNew sub.entries qrest cache
      listLoop fuel step.1 step.2 (dps ++ [dp])

/-- The core of `list_dps`: initialization from the top-level entries with a
given pre-marked cache, then the BFS loop.  `list_dps(graph)` without
exclusions is this core with the empty cache. -/
def list_dps_core (graph : Graph) (cache0 : List Nat) : List DP :=
  let init := enqueueNew graph.entries [] cache0
  listLoop (graph.allEntries.length + init.1.length + 1) init.1 init.2 []

/-- The exclusion pre-marking of `list_dps` (graph/utils.py lines 50-61):
every pipe listed by the full traversal of each excluded pipe is pre-marked
visited (already-excluded pipes are skipped). -/
def excludeCache : List DP → List Nat → List Nat
  | [], cache => cache
  | ex :: rest, cache =>
    if ex.pid ∈ cache then excludeCache rest cache
    else
      excludeCache rest
        (cache ++ ((list_dps_core (traverse_dps ex) []).map DP.pid).filter
          (fun i => !(i ∈ cache)))

/-- `list_dps(graph, exclude_dps)` (graph/utils.py lines 38-78). -/
def list_dps (graph : Graph) (exclude : List DP) : List DP :=
  list_dps_core graph (excludeCache exclude [])

/-- Well-formedness of a graph as produced by `traverse_dps`: every entry's
key is its pipe's id, and an id determines the pipe and its subgraph. -/
def Graph.wf (g : Graph) : Prop :=
  (∀ e ∈ g.allEntries, GEntry.pid e = DP.pid (GEntry.dp e)) ∧
  (∀ e e' : GEntry, e ∈ g.allEntries → e' ∈ g.allEntries →
    GEntry.pid e = GEntry.pid e' → GEntry.dp e = GEntry.dp e' ∧
      GEntry.sub e = GEntry.sub e')

/-- Entries reachable from the top of a graph by following subgraphs. -/
inductive ReachEntry (g : Graph) : GEntry → Prop where
  | top : ∀ e ∈ g.entries, ReachEntry g e
  | child : ∀ e e', ReachEntry g e → e' ∈ (GEntry.sub e).entries → ReachEntry g e'

/-- Direct children ids of an entry: the top-level ids of its subgraph. -/
def childIds (e : GEntry) : List Nat :=
  (GEntry.sub e).entries.map GEntry.pid

/-- A visited-id cache is closed (outside an allowance set `S`) when every
cached entry's direct children are cached as well. -/
def ClosedExcept (G : Graph) (cache : List Nat) (S : List Nat) : Prop :=
  ∀ e ∈ G.allEntries, GEntry.pid e ∈ cache →
    GEntry.pid e ∈ S ∨ ∀ i ∈ childIds e, i ∈ cache

section ZipLemmas

variable {α β γ κ : Type} [DecidableEq κ]

lemma bufPop_eq_some (key : κ) :
    ∀ (buf : List (κ × β)), key ∈ buf.map Prod.fst →
      ∃ b buf2, bufPop key buf = some (b, buf2) ∧
        buf2.length + 1 = buf.length ∧
        (buf.map Prod.snd : Multiset β) = b ::ₘ (buf2.map Prod.snd : Multiset β)
  | [], h => by simp at h
  | (k0, v) :: rest, h => by
    by_cases hk : k0 = key
    · exact ⟨v, rest, by simp [bufPop, hk], by simp, by simp⟩
    · have hmem : key ∈ rest.map Prod.fst := by
        rcases List.mem_map.mp h with ⟨p, hp, hfst⟩
        rcases List.mem_cons.mp hp with h0 | h0
        · exact absurd (by simpa [h0] using hfst) hk
        · exact List.mem_map.mpr ⟨p, h0, hfst⟩
      rcases bufPop_eq_some key rest hmem with ⟨b, buf2, hpop, hlen, hms⟩
      refine ⟨b, (k0, v) :: buf2, by simp [bufPop, hk, hpop], by simp [← hlen], ?_⟩
      simp only [List.map_cons, ← Multiset.cons_coe, hms]
      exact Multiset.cons_swap v b _

/-- When `zipFill` returns without error the requested key is buffered. -/
lemma zipFill_mem (rk : β → κ) (bs : Option Nat) (key : κ) :
    ∀ (ref : List β) (buf : List (κ × β)) (wf : Bool) (w : Nat)
      (ev : List (κ × β)) (dr : List β) (pk : Nat),
      (zipFill rk bs key ref buf wf w ev dr pk).error = none →
      key ∈ (zipFill rk bs key ref buf wf w ev dr pk).buffer.map Prod.fst := by
  intro ref
  induction ref with
  | nil =>
    intro buf wf w ev dr pk h
    by_cases hm : key ∈ buf.map Prod.fst
    · simp [zipFill, hm]
    · simp [zipFill, hm] at h
  | cons r rest ih =>
    intro buf wf w ev dr pk h
    by_cases hm : key ∈ buf.map Prod.fst
    · simp [zipFill, hm]
    · by_cases hd : rk r ∈ buf.map Prod.fst
      · simp [zipFill, hm, hd] at h
      · simp only [zipFill, hm, hd, if_neg, ite_false] at h ⊢
        exact ih _ _ _ _ _ _ h

/-- Unfolding of one pull-evict-insert step of the fill loop. -/
lemma zipFill_cons (rk : β → κ) (bs : Option Nat) (key : κ)
    (r : β) (rest : List β) (buf : List (κ × β)) (wf : Bool) (w : Nat)
    (ev : List (κ × β)) (dr : List β) (pk : Nat)
    (hm : key ∉ buf.map Prod.fst) (hd : rk r ∉ buf.map Prod.fst) :
    zipFill rk bs key (r :: rest) buf wf w ev dr pk
    = zipFill rk bs key rest
        ((if evictCond bs buf.length = true then buf.drop 1 else buf) ++ [(rk r, r)])
        (if (evictCond bs buf.length && wf) = true then false else wf)
        (if (evictCond bs buf.length && wf) = true then w + 1 else w)
        (if evictCond bs buf.length = true then ev ++ buf.take 1 else ev) dr
        (max pk (((if evictCond bs buf.length = true then buf.drop 1 else buf)
          ++ [(rk r, r)])).length) := by
  conv_lhs => rw [zipFill]
  simp only [if_neg hm, if_neg hd]

/-- If the key is neither buffered nor produced by any remaining reference
item, the fill loop must fail: there is no silent drop. -/
lemma zipFill_exhaust (rk : β → κ) (bs : Option Nat) (key : κ) :
    ∀ (ref : List β) (buf : List (κ × β)) (wf : Bool) (w : Nat)
      (ev : List (κ × β)) (dr : List β) (pk : Nat),
      key ∉ buf.map Prod.fst → (∀ b ∈ ref, rk b ≠ key) →
      ((zipFill rk bs key ref buf wf w ev dr pk).error).isSome := by
  intro ref
  induction ref with
  | nil => intro buf wf w ev dr pk hm _; simp [zipFill, hm]
  | cons r rest ih =>
    intro buf wf w ev dr pk hm hr
    by_cases hd : rk r ∈ buf.map Prod.fst
    · simp [zipFill, hm, hd]
    · rw [zipFill_cons rk bs key r rest buf wf w ev dr pk hm hd]
      have hnew : key ∉ ((if evictCond bs buf.length = true then buf.drop 1 else buf)
          ++ [(rk r, r)]).map Prod.fst := by
        intro hmem
        simp only [List.map_append, List.mem_append] at hmem
        rcases hmem with h1 | h1
        · apply hm
          by_cases hev : evictCond bs buf.length = true
          · rw [if_pos hev] at h1
            rcases List.mem_map.mp h1 with ⟨p, hp, hfst⟩
            exact List.mem_map.mpr ⟨p, List.mem_of_mem_drop hp, hfst⟩
          · rw [if_neg hev] at h1
            exact h1
        · simp only [List.map_cons, List.map_nil, List.mem_singleton] at h1
          exact hr r (List.mem_cons_self r rest) h1.symm
      exact ih _ _ _ _ _ _ hnew (fun b hb => hr b (List.mem_cons_of_mem _ hb))

/-- The buffer length and the observed peak never exceed `buffer_size + 1`. -/
lemma zipFill_bound (rk : β → κ) (n : Nat) (key : κ) :
    ∀ (ref : List β) (buf : List (κ × β)) (wf : Bool) (w : Nat)
      (ev : List (κ × β)) (dr : List β) (pk : Nat),
      buf.length ≤ n + 1 → pk ≤ n + 1 →
      (zipFill rk (some n) key ref buf wf w ev dr pk).buffer.length ≤ n + 1 ∧
      (zipFill rk (some n) key ref buf wf w ev dr pk).peak ≤ n + 1 := by
  intro ref
  induction ref with
  | nil =>
    intro buf wf w ev dr pk hb hp
    by_cases hm : key ∈ buf.map Prod.fst <;> simp [zipFill, hm, hb, hp]
  | cons r rest ih =>
    intro buf wf w ev dr pk hb hp
    by_cases hm : key ∈ buf.map Prod.fst
    · simp [zipFill, hm, hb, hp]
    · by_cases hd : rk r ∈ buf.map Prod.fst
      · simp [zipFill, hm, hd, hb, hp]
      · rw [zipFill_cons rk (some n) key r rest buf wf w ev dr pk hm hd]
        have hlen : ((if evictCond (some n) buf.length = true then buf.drop 1 else buf)
            ++ [(rk r, r)]).length ≤ n + 1 := by
          by_cases hev : evictCond (some n) buf.length = true
          · have hlt : n < buf.length := by simpa [evictCond] using hev
            simp only [if_pos hev, List.length_append, List.length_drop,
              List.length_cons, List.length_nil]
            omega
          · have hle : ¬ n < buf.length := by simpa [evictCond] using hev
            simp only [if_neg hev, List.length_append, List.length_cons, List.length_nil]
            omega
        exact ih _ _ _ _ _ _ hlen (max_le hp hlen)

/-- The warning counter plus the pending-warning flag is invariant: at most
one warning is ever emitted per iteration pass. -/
lemma zipFill_warns (rk : β → κ) (bs : Option Nat) (key : κ) :
    ∀ (ref : List β) (buf : List (κ × β)) (wf : Bool) (w : Nat)
      (ev : List (κ × β)) (dr : List β) (pk : Nat),
      (zipFill rk bs key ref buf wf w ev dr pk).warns
        + (if (zipFill rk bs key ref buf wf w ev dr pk).warnFlag then 1 else 0)
      = w + (if wf then 1 else 0) := by
  intro ref
  induction ref with
  | nil =>
    intro buf wf w ev dr pk
    by_cases hm : key ∈ buf.map Prod.fst <;> simp [zipFill, hm]
  | cons r rest ih =>
    intro buf wf w ev dr pk
    by_cases hm : key ∈ buf.map Prod.fst
    · simp [zipFill, hm]
    · by_cases hd : rk r ∈ buf.map Prod.fst
      · simp [zipFill, hm, hd]
      · rw [zipFill_cons rk bs key r rest buf wf w ev dr pk hm hd]
        rw [ih _ _ _ _ _ _]
        cases hev : evictCond bs buf.length <;> cases wf <;> simp

/-- Conservation of reference items: buffered, evicted, dropped and
unconsumed items always partition the consumed part of the reference
stream. -/
lemma zipFill_mass (rk : β → κ) (bs : Option Nat) (key : κ) :
    ∀ (ref : List β) (buf : List (κ × β)) (wf : Bool) (w : Nat)
      (ev : List (κ × β)) (dr : List β) (pk : Nat),
      ((zipFill rk bs key ref buf wf w ev dr pk).buffer.map Prod.snd : Multiset β)
        + ((zipFill rk bs key ref buf wf w ev dr pk).evicted.map Prod.snd : Multiset β)
        + ((zipFill rk bs key ref buf wf w ev dr pk).dropped : Multiset β)
        + ((zipFill rk bs key ref buf wf w ev dr pk).ref : Multiset β)
      = (buf.map Prod.snd : Multiset β) + (ev.map Prod.snd : Multiset β)
        + (dr : Multiset β) + (ref : Multiset β) := by
  intro ref
  induction ref with
  | nil =>
    intro buf wf w ev dr pk
    by_cases hm : key ∈ buf.map Prod.fst <;> simp [zipFill, hm]
  | cons r rest ih =>
    intro buf wf w ev dr pk
    by_cases hm : key ∈ buf.map Prod.fst
    · simp [zipFill, hm]
    · by_cases hd : rk r ∈ buf.map Prod.fst
      · simp only [zipFill, if_neg hm, if_pos hd, dite_eq_ite]
        simp only [← Multiset.cons_coe, ← Multiset.coe_add, List.append_assoc]
        simp only [← Multiset.singleton_add, ← Multiset.coe_add]
        abel
      · rw [zipFill_cons rk bs key r rest buf wf w ev dr pk hm hd]
        rw [ih _ _ _ _ _ _]
        by_cases hev : evictCond bs buf.length = true
        · rcases buf with _ | ⟨bh, bt⟩
          · rcases bs with _ | nn <;> simp [evictCond] at hev
          · simp only [if_pos hev, List.drop_succ_cons, List.drop_zero,
              List.take_succ_cons, List.take_nil, List.take_zero, List.map_append,
              List.map_cons, List.map_nil]
            simp only [← Multiset.cons_coe, ← Multiset.coe_add]
            simp only [← Multiset.singleton_add]
            abel
        · simp only [if_neg hev, List.map_append, List.map_cons, List.map_nil]
          simp only [← Multiset.cons_coe, ← Multiset.coe_add]
          simp only [← Multiset.singleton_add]
          abel

lemma bufPop_some_length (key : κ) :
    ∀ (buf : List (κ × β)) (b : β) (buf2 : List (κ × β)),
      bufPop key buf = some (b, buf2) → buf2.length + 1 = buf.length
  | [], b, buf2, h => by simp [bufPop] at h
  | (k0, v) :: rest, b, buf2, h => by
    by_cases hk : k0 = key
    · simp only [bufPop, if_pos hk, Option.some.injEq, Prod.mk.injEq] at h
      simp [← h.2]
    · simp only [bufPop, if_neg hk, Option.map_eq_some'] at h
      rcases h with ⟨⟨b2, l2⟩, hp, heq⟩
      have hb : b = b2 := by simpa using congrArg Prod.fst heq.symm
      have hl : buf2 = (k0, v) :: l2 := by simpa using congrArg Prod.snd heq.symm
      subst hb hl
      have := bufPop_some_length key rest _ _ hp
      simp [← this]

lemma bufPop_some_mass (key : κ) :
    ∀ (buf : List (κ × β)) (b : β) (buf2 : List (κ × β)),
      bufPop key buf = some (b, buf2) →
      (buf.map Prod.snd : Multiset β) = b ::ₘ (buf2.map Prod.snd : Multiset β)
  | [], b, buf2, h => by simp [bufPop] at h
  | (k0, v) :: rest, b, buf2, h => by
    by_cases hk : k0 = key
    · simp only [bufPop, if_pos hk, Option.some.injEq, Prod.mk.injEq] at h
      simp [← h.1, ← h.2]
    · simp only [bufPop, if_neg hk, Option.map_eq_some'] at h
      rcases h with ⟨⟨b2, l2⟩, hp, heq⟩
      have hb : b = b2 := by simpa using congrArg Prod.fst heq.symm
      have hl : buf2 = (k0, v) :: l2 := by simpa using congrArg Prod.snd heq.symm
      subst hb hl
      have := bufPop_some_mass key rest _ _ hp
      simp only [List.map_cons, ← Multiset.cons_coe, this]
      exact Multiset.cons_swap _ _ _

lemma zipLoop_err (keyFn : α → κ) (rk : β → κ) (merge : α → β → γ) (kk : Bool)
    (bs : Option Nat) (a : α) (as : List α) (ref : List β) (buf : List (κ × β))
    (wf : Bool) (w : Nat) (ev : List (κ × β)) (dr : List β) (pk : Nat)
    (outs : List (ZipOut κ γ)) (matched : List β) (e : ZipError)
    (hf : (zipFill rk bs (keyFn a) ref buf wf w ev dr pk).error = some e) :
    zipLoop keyFn rk merge kk bs (a :: as) ref buf wf w ev dr pk outs matched
    = ⟨outs, matched, (zipFill rk bs (keyFn a) ref buf wf w ev dr pk).ref,
        (zipFill rk bs (keyFn a) ref buf wf w ev dr pk).buffer,
        (zipFill rk bs (keyFn a) ref buf wf w ev dr pk).warnFlag,
        (zipFill rk bs (keyFn a) ref buf wf w ev dr pk).warns,
        (zipFill rk bs (keyFn a) ref buf wf w ev dr pk).evicted,
        (zipFill rk bs (keyFn a) ref buf wf w ev dr pk).dropped,
        (zipFill rk bs (keyFn a) ref buf wf w ev dr pk).peak, some e⟩ := by
  conv_lhs => rw [zipLoop]
  simp only [hf]

lemma zipLoop_yield (keyFn : α → κ) (rk : β → κ) (merge : α → β → γ) (kk : Bool)
    (bs : Option Nat) (a : α) (as : List α) (ref : List β) (buf : List (κ × β))
    (wf : Bool) (w : Nat) (ev : List (κ × β)) (dr : List β) (pk : Nat)
    (outs : List (ZipOut κ γ)) (matched : List β) (b : β) (buf2 : List (κ × β))
    (hf : (zipFill rk bs (keyFn a) ref buf wf w ev dr pk).error = none)
    (hb : bufPop (keyFn a) (zipFill rk bs (keyFn a) ref buf wf w ev dr pk).buffer
      = some (b, buf2)) :
    zipLoop keyFn rk merge kk bs (a :: as) ref buf wf w ev dr pk outs matched
    = zipLoop keyFn rk merge kk bs as
        (zipFill rk bs (keyFn a) ref buf wf w ev dr pk).ref buf2
        (zipFill rk bs (keyFn a) ref buf wf w ev dr pk).warnFlag
        (zipFill rk bs (keyFn a) ref buf wf w ev dr pk).warns
        (zipFill rk bs (keyFn a) ref buf wf w ev dr pk).evicted
        (zipFill rk bs (keyFn a) ref buf wf w ev dr pk).dropped
        (zipFill rk bs (keyFn a) ref buf wf w ev dr pk).peak
        (outs ++ [if kk then ZipOut.keyed (keyFn a) (merge a b)
          else ZipOut.plain (merge a b)])
        (matched ++ [b]) := by
  conv_lhs => rw [zipLoop]
  simp only [hf, hb]

lemma zipLoop_warns (keyFn : α → κ) (rk : β → κ) (merge : α → β → γ) (kk : Bool)
    (bs : Option Nat) :
    ∀ (source : List α) (ref : List β) (buf : List (κ × β)) (wf : Bool) (w : Nat)
      (ev : List (κ × β)) (dr : List β) (pk : Nat)
      (outs : List (ZipOut κ γ)) (matched : List β),
      (zipLoop keyFn rk merge kk bs source ref buf wf w ev dr pk outs matched).warns
        + (if (zipLoop keyFn rk merge kk bs source ref buf wf w ev dr pk outs
            matched).warnFlag then 1 else 0)
      = w + (if wf then 1 else 0) := by
  intro source
  induction source with
  | nil => intro ref buf wf w ev dr pk outs matched; simp [zipLoop]
  | cons a as ih =>
    intro ref buf wf w ev dr pk outs matched
    cases hf : (zipFill rk bs (keyFn a) ref buf wf w ev dr pk).error with
    | some e =>
      rw [zipLoop_err keyFn rk merge kk bs a as ref buf wf w ev dr pk outs matched e hf]
      exact zipFill_warns rk bs (keyFn a) ref buf wf w ev dr pk
    | none =>
      cases hb : bufPop (keyFn a) (zipFill rk bs (keyFn a) ref buf wf w ev dr pk).buffer with
      | none =>
        have hmem := zipFill_mem rk bs (keyFn a) ref buf wf w ev dr pk hf
        rcases bufPop_eq_some (keyFn a) _ hmem with ⟨b, buf2, hpop, _, _⟩
        rw [hb] at hpop
        cases hpop
      | some p =>
        rcases p with ⟨b, buf2⟩
        rw [zipLoop_yield keyFn rk merge kk bs a as ref buf wf w ev dr pk outs matched
          b buf2 hf hb]
        rw [ih _ _ _ _ _ _ _ _ _]
        exact zipFill_warns rk bs (keyFn a) ref buf wf w ev dr pk

lemma zipLoop_bound (keyFn : α → κ) (rk : β → κ) (merge : α → β → γ) (kk : Bool)
    (n : Nat) :
    ∀ (source : List α) (ref : List β) (buf : List (κ × β)) (wf : Bool) (w : Nat)
      (ev : List (κ × β)) (dr : List β) (pk : Nat)
      (outs : List (ZipOut κ γ)) (matched : List β),
      buf.length ≤ n + 1 → pk ≤ n + 1 →
      (zipLoop keyFn rk merge kk (some n) source ref buf wf w ev dr pk outs
        matched).buffer.length ≤ n + 1 ∧
      (zipLoop keyFn rk merge kk (some n) source ref buf wf w ev dr pk outs
        matched).peak ≤ n + 1 := by
  intro source
  induction source with
  | nil => intro ref buf wf w ev dr pk outs matched hb hp; simpa [zipLoop] using ⟨hb, hp⟩
  | cons a as ih =>
    intro ref buf wf w ev dr pk outs matched hb hp
    have hfill := zipFill_bound rk n (keyFn a) ref buf wf w ev dr pk hb hp
    cases hf : (zipFill rk (some n) (keyFn a) ref buf wf w ev dr pk).error with
    | some e =>
      rw [zipLoop_err keyFn rk merge kk (some n) a as ref buf wf w ev dr pk outs
        matched e hf]
      exact hfill
    | none =>
      cases hb2 : bufPop (keyFn a)
          (zipFill rk (some n) (keyFn a) ref buf wf w ev dr pk).buffer with
      | none =>
        have hmem := zipFill_mem rk (some n) (keyFn a) ref buf wf w ev dr pk hf
        rcases bufPop_eq_some (keyFn a) _ hmem with ⟨b, buf2, hpop, _, _⟩
        rw [hb2] at hpop
        cases hpop
      | some p =>
        rcases p with ⟨b, buf2⟩
        rw [zipLoop_yield keyFn rk merge kk (some n) a as ref buf wf w ev dr pk outs
          matched b buf2 hf hb2]
        have hlen := bufPop_some_length (keyFn a) _ b buf2 hb2
        exact ih _ _ _ _ _ _ _ _ _ (by omega) hfill.2

lemma zipLoop_mass (keyFn : α → κ) (rk : β → κ) (merge : α → β → γ) (kk : Bool)
    (bs : Option Nat) :
    ∀ (source : List α) (ref : List β) (buf : List (κ × β)) (wf : Bool) (w : Nat)
      (ev : List (κ × β)) (dr : List β) (pk : Nat)
      (outs : List (ZipOut κ γ)) (matched : List β),
      ((zipLoop keyFn rk merge kk bs source ref buf wf w ev dr pk outs
          matched).matched : Multiset β)
        + ((zipLoop keyFn rk merge kk bs source ref buf wf w ev dr pk outs
            matched).evicted.map Prod.snd : Multiset β)
        + ((zipLoop keyFn rk merge kk bs source ref buf wf w ev dr pk outs
            matched).dropped : Multiset β)
        + ((zipLoop keyFn rk merge kk bs source ref buf wf w ev dr pk outs
            matched).buffer.map Prod.snd : Multiset β)
        + ((zipLoop keyFn rk merge kk bs source ref buf wf w ev dr pk outs
            matched).refRest : Multiset β)
      = (matched : Multiset β) + (ev.map Prod.snd : Multiset β) + (dr : Multiset β)
        + (buf.map Prod.snd : Multiset β) + (ref : Multiset β) := by
  intro source
  induction source with
  | nil => intro ref buf wf w ev dr pk outs matched; simp [zipLoop]
  | cons a as ih =>
    intro ref buf wf w ev dr pk outs matched
    have hm := zipFill_mass rk bs (keyFn a) ref buf wf w ev dr pk
    cases hf : (zipFill rk bs (keyFn a) ref buf wf w ev dr pk).error with
    | some e =>
      rw [zipLoop_err keyFn rk merge kk bs a as ref buf wf w ev dr pk outs matched e hf]
      calc (matched : Multiset β)
            + ((zipFill rk bs (keyFn a) ref buf wf w ev dr pk).evicted.map
                Prod.snd : Multiset β)
            + ((zipFill rk bs (keyFn a) ref buf wf w ev dr pk).dropped : Multiset β)
            + ((zipFill rk bs (keyFn a) ref buf wf w ev dr pk).buffer.map
                Prod.snd : Multiset β)
            + ((zipFill rk bs (keyFn a) ref buf wf w ev dr pk).ref : Multiset β)
          = (matched : Multiset β)
            + (((zipFill rk bs (keyFn a) ref buf wf w ev dr pk).buffer.map
                Prod.snd : Multiset β)
              + ((zipFill rk bs (keyFn a) ref buf wf w ev dr pk).evicted.map
                  Prod.snd : Multiset β)
              + ((zipFill rk bs (keyFn a) ref buf wf w ev dr pk).dropped : Multiset β)
              + ((zipFill rk bs (keyFn a) ref buf wf w ev dr pk).ref : Multiset β)) := by
            abel
        _ = (matched : Multiset β) + ((buf.map Prod.snd : Multiset β)
              + (ev.map Prod.snd : Multiset β) + (dr : Multiset β)
              + (ref : Multiset β)) := by rw [hm]
        _ = (matched : Multiset β) + (ev.map Prod.snd : Multiset β) + (dr : Multiset β)
              + (buf.map Prod.snd : Multiset β) + (ref : Multiset β) := by abel
    | none =>
      cases hb2 : bufPop (keyFn a)
          (zipFill rk bs (keyFn a) ref buf wf w ev dr pk).buffer with
      | none =>
        have hmem := zipFill_mem rk bs (keyFn a) ref buf wf w ev dr pk hf
        rcases bufPop_eq_some (keyFn a) _ hmem with ⟨b, buf2, hpop, _, _⟩
        rw [hb2] at hpop
        cases hpop
      | some p =>
        rcases p with ⟨b, buf2⟩
        rw [zipLoop_yield keyFn rk merge kk bs a as ref buf wf w ev dr pk outs
          matched b buf2 hf hb2]
        rw [ih _ _ _ _ _ _ _ _ _]
        have hbm := bufPop_some_mass (keyFn a) _ b buf2 hb2
        calc ((matched ++ [b] : List β) : Multiset β)
              + ((zipFill rk bs (keyFn a) ref buf wf w ev dr pk).evicted.map
                  Prod.snd : Multiset β)
              + ((zipFill rk bs (keyFn a) ref buf wf w ev dr pk).dropped : Multiset β)
              + (buf2.map Prod.snd : Multiset β)
              + ((zipFill rk bs (keyFn a) ref buf wf w ev dr pk).ref : Multiset β)
            = (matched : Multiset β)
              + ((b ::ₘ (buf2.map Prod.snd : Multiset β))
                + ((zipFill rk bs (keyFn a) ref buf wf w ev dr pk).evicted.map
                    Prod.snd : Multiset β)
                + ((zipFill rk bs (keyFn a) ref buf wf w ev dr pk).dropped : Multiset β)
                + ((zipFill rk bs (keyFn a) ref buf wf w ev dr pk).ref : Multiset β)) := by
              simp only [← Multiset.coe_add, Multiset.coe_singleton,
                ← Multiset.singleton_add]
              abel
          _ = (matched : Multiset β)
              + (((zipFill rk bs (keyFn a) ref buf wf w ev dr pk).buffer.map
                  Prod.snd : Multiset β)
                + ((zipFill rk bs (keyFn a) ref buf wf w ev dr pk).evicted.map
                    Prod.snd : Multiset β)
                + ((zipFill rk bs (keyFn a) ref buf wf w ev dr pk).dropped : Multiset β)
                + ((zipFill rk bs (keyFn a) ref buf wf w ev dr pk).ref : Multiset β)) := by
              rw [hbm]
          _ = (matched : Multiset β) + ((buf.map Prod.snd : Multiset β)
                + (ev.map Prod.snd : Multiset β) + (dr : Multiset β)
                + (ref : Multiset β)) := by rw [hm]
          _ = (matched : Multiset β) + (ev.map Prod.snd : Multiset β) + (dr : Multiset β)
                + (buf.map Prod.snd : Multiset β) + (ref : Multiset β) := by abel

lemma zipLoop_outputs (keyFn : α → κ) (rk : β → κ) (merge : α → β → γ) (kk : Bool)
    (bs : Option Nat) :
    ∀ (source : List α) (ref : List β) (buf : List (κ × β)) (wf : Bool) (w : Nat)
      (ev : List (κ × β)) (dr : List β) (pk : Nat)
      (outs : List (ZipOut κ γ)) (matched : List β),
      (zipLoop keyFn rk merge kk bs source ref buf wf w ev dr pk outs
        matched).error = none →
      ∃ δ : List β,
        (zipLoop keyFn rk merge kk bs source ref buf wf w ev dr pk outs
          matched).matched = matched ++ δ ∧
        δ.length = source.length ∧
        (zipLoop keyFn rk merge kk bs source ref buf wf w ev dr pk outs
          matched).outputs
        = outs ++ List.zipWith (fun a b => if kk then ZipOut.keyed (keyFn a) (merge a b)
            else ZipOut.plain (merge a b)) source δ := by
  intro source
  induction source with
  | nil =>
    intro ref buf wf w ev dr pk outs matched _
    exact ⟨[], by simp [zipLoop], by simp, by simp [zipLoop]⟩
  | cons a as ih =>
    intro ref buf wf w ev dr pk outs matched herr
    cases hf : (zipFill rk bs (keyFn a) ref buf wf w ev dr pk).error with
    | some e =>
      rw [zipLoop_err keyFn rk merge kk bs a as ref buf wf w ev dr pk outs matched e hf]
        at herr
      cases herr
    | none =>
      cases hb2 : bufPop (keyFn a)
          (zipFill rk bs (keyFn a) ref buf wf w ev dr pk).buffer with
      | none =>
        have hmem := zipFill_mem rk bs (keyFn a) ref buf wf w ev dr pk hf
        rcases bufPop_eq_some (keyFn a) _ hmem with ⟨b, buf2, hpop, _, _⟩
        rw [hb2] at hpop
        cases hpop
      | some p =>
        rcases p with ⟨b, buf2⟩
        rw [zipLoop_yield keyFn rk merge kk bs a as ref buf wf w ev dr pk outs
          matched b buf2 hf hb2] at herr ⊢
        rcases ih _ _ _ _ _ _ _ _ _ herr with ⟨δ, hmat, hlen, hout⟩
        refine ⟨b :: δ, ?_, by simp [hlen], ?_⟩
        · rw [hmat]
          simp
        · rw [hout]
          simp [List.zipWith]

end ZipLemmas

section MapZipLemmas

variable {α μ γ κ : Type} [DecidableEq κ]

/-- When every key of the source is present in the map, the lookup joiner
yields one merged item per source item, in source order. -/
lemma mapZipLoop_ok [Inhabited μ] (keyFn : α → κ) (merge : α → μ → γ) (kk : Bool)
    (m : List (κ × μ)) :
    ∀ (source : List α) (outs : List (ZipOut κ γ)),
      (∀ a ∈ source, (mapGetItem m (keyFn a)).isSome) →
      (mapZipLoop keyFn merge kk m source outs).error = none ∧
      (mapZipLoop keyFn merge kk m source outs).outputs
      = outs ++ source.map (fun a =>
          if kk then ZipOut.keyed (keyFn a) (merge a ((mapGetItem m (keyFn a)).getD default))
          else ZipOut.plain (merge a ((mapGetItem m (keyFn a)).getD default))) := by
  intro source
  induction source with
  | nil => intro outs _; simp [mapZipLoop]
  | cons a as ih =>
    intro outs h
    have ha : (mapGetItem m (keyFn a)).isSome := h a (List.mem_cons_self a as)
    rcases Option.isSome_iff_exists.mp ha with ⟨v, hv⟩
    have step : mapZipLoop keyFn merge kk m (a :: as) outs
        = mapZipLoop keyFn merge kk m as
            (outs ++ [if kk then ZipOut.keyed (keyFn a) (merge a v)
              else ZipOut.plain (merge a v)]) := by
      conv_lhs => rw [mapZipLoop]
      simp only [hv]
    rcases ih (outs ++ [if kk then ZipOut.keyed (keyFn a) (merge a v)
        else ZipOut.plain (merge a v)]) (fun b hb => h b (List.mem_cons_of_mem _ hb))
      with ⟨herr, hout⟩
    refine ⟨by rw [step]; exact herr, ?_⟩
    rw [step, hout]
    simp [hv]

/-- A source item whose key misses the map aborts the pass with a lookup
error carrying the item and key, after yielding the preceding merges. -/
lemma mapZipLoop_err [Inhabited μ] (keyFn : α → κ) (merge : α → μ → γ) (kk : Bool)
    (m : List (κ × μ)) :
    ∀ (pre : List α) (a : α) (suf : List α) (outs : List (ZipOut κ γ)),
      (∀ b ∈ pre, (mapGetItem m (keyFn b)).isSome) →
      mapGetItem m (keyFn a) = none →
      (mapZipLoop keyFn merge kk m (pre ++ a :: suf) outs).error = some (a, keyFn a) ∧
      (mapZipLoop keyFn merge kk m (pre ++ a :: suf) outs).outputs
      = outs ++ pre.map (fun b =>
          if kk then ZipOut.keyed (keyFn b) (merge b ((mapGetItem m (keyFn b)).getD default))
          else ZipOut.plain (merge b ((mapGetItem m (keyFn b)).getD default))) := by
  intro pre
  induction pre with
  | nil =>
    intro a suf outs _ hmiss
    constructor <;> · conv_lhs => rw [List.nil_append, mapZipLoop]
                      simp [hmiss]
  | cons b bs ih =>
    intro a suf outs h hmiss
    have hb : (mapGetItem m (keyFn b)).isSome := h b (List.mem_cons_self b bs)
    rcases Option.isSome_iff_exists.mp hb with ⟨v, hv⟩
    have step : mapZipLoop keyFn merge kk m ((b :: bs) ++ a :: suf) outs
        = mapZipLoop keyFn merge kk m (bs ++ a :: suf)
            (outs ++ [if kk then ZipOut.keyed (keyFn b) (merge b v)
              else ZipOut.plain (merge b v)]) := by
      conv_lhs => rw [List.cons_append, mapZipLoop]
      simp only [hv]
    rcases ih a suf (outs ++ [if kk then ZipOut.keyed (keyFn b) (merge b v)
        else ZipOut.plain (merge b v)]) (fun c hc => h c (List.mem_cons_of_mem _ hc)) hmiss
      with ⟨herr, hout⟩
    refine ⟨by rw [step]; exact herr, ?_⟩
    rw [step, hout]
    simp [hv]

end MapZipLemmas

section RoundRobinLemmas

/-- Counting the indices below `n` that fall on branch `i`. -/
lemma range_mod_count (N i : Nat) (hN : 0 < N) (hi : i < N) :
    ∀ n, ((List.range n).filter (fun j => decide (j % N = i))).length
      = n / N + (if i < n % N then 1 else 0) := by
  intro n
  induction n with
  | zero => simp
  | succ n ih =>
    rw [List.range_succ, List.filter_append, List.length_append, ih]
    have hq := Nat.div_add_mod n N
    have hr : n % N < N := Nat.mod_lt _ hN
    have h1 : n + 1 = N * (n / N) + (n % N + 1) := by
      conv_lhs => rw [← hq]
      exact Nat.add_assoc _ _ _
    rcases Nat.lt_or_ge (n % N + 1) N with hlt | hge
    · have hdiv : (n + 1) / N = n / N := by
        rw [h1, Nat.mul_add_div hN, Nat.div_eq_of_lt hlt, Nat.add_zero]
      have hmod : (n + 1) % N = n % N + 1 := by
        rw [h1, Nat.mul_add_mod, Nat.mod_eq_of_lt hlt]
      rw [hdiv, hmod]
      by_cases hni : n % N = i <;> simp [hni] <;> (try split_ifs) <;> omega
    · have hEq : n % N + 1 = N := by omega
      have hdiv : (n + 1) / N = n / N + 1 := by
        rw [h1, hEq, Nat.mul_add_div hN, Nat.div_self hN]
      have hmod : (n + 1) % N = 0 := by
        rw [h1, hEq, Nat.mul_add_mod, Nat.mod_self]
      rw [hdiv, hmod]
      by_cases hni : n % N = i <;> simp [hni] <;> (try split_ifs) <;> omega

/-- The analytic per-branch length agrees with the number of routed items. -/
lemma roundRobinBranch_length {α : Type} (source : List α) (N i : Nat)
    (hN : 0 < N) (hi : i < N) :
    (roundRobinBranch source N i).length = roundRobinGetLength source.length N i := by
  unfold roundRobinBranch roundRobinGetLength roundRobinFn
  rw [List.length_map]
  have hflt : (source.enum.filter (fun p => decide (p.1 % N = i))).length
      = ((List.range source.length).filter (fun j => decide (j % N = i))).length := by
    rw [← List.enum_map_fst source, List.filter_map, List.length_map]
    rfl
  have hsub : source.length - source.length / N * N = source.length % N := by
    have hq := Nat.div_add_mod source.length N
    rw [Nat.mul_comm]
    omega
  rw [hflt, range_mod_count N i hN hi source.length]
  simp only [gt_iff_lt]
  rw [hsub]
  split_ifs with h <;> omega

end RoundRobinLemmas

section AssignAttrLemmas

/-- The tuple-branch loop substitutes pointwise: a slot receives `new_dp`
exactly when its recursive call signals, and the rebuild flag is set when
any slot signals. -/
lemma assignAttrTupF_spec (old new : Nat) :
    ∀ elems : List HVal,
      assignAttrTupF old new elems
      = (elems.map (fun o => if (assignAttrF old new o).2.isSome then HVal.ref new
            else (assignAttrF old new o).1),
         elems.any (fun o => (assignAttrF old new o).2.isSome)) := by
  intro elems
  induction elems with
  | nil => simp [assignAttrTupF]
  | cons o os ih =>
    cases h : (assignAttrF old new o).2 with
    | none => simp [assignAttrTupF, h, ih]
    | some nv => simp [assignAttrTupF, h, ih]

/-- The list branch substitutes only at the first signalling index, leaving
the suffix untouched. -/
lemma assignAttrListF_spec (old new : Nat) :
    ∀ (pre : List HVal) (o : HVal) (suf : List HVal) (nv : HVal),
      (∀ p ∈ pre, (assignAttrF old new p).2 = none) →
      (assignAttrF old new o).2 = some nv →
      assignAttrListF old new (pre ++ o :: suf)
      = pre.map (fun p => (assignAttrF old new p).1) ++ nv :: suf := by
  intro pre
  induction pre with
  | nil =>
    intro o suf nv _ ho
    simp only [List.nil_append, List.map_nil, assignAttrListF, ho]
  | cons p ps ih =>
    intro o suf nv hpre ho
    have hp := hpre p (List.mem_cons_self p ps)
    simp only [List.cons_append, List.map_cons, assignAttrListF, hp]
    simp only [List.append_eq]
    rw [ih o suf nv (fun q hq => hpre q (List.mem_cons_of_mem _ hq)) ho]

/-- The dict scan (also used for a pipe object's fields) substitutes only at
the first signalling value, leaving the remaining entries untouched. -/
lemma assignAttrDictF_spec (old new : Nat) :
    ∀ (pre : List (String × HVal)) (k : String) (v : HVal)
      (suf : List (String × HVal)) (nv : HVal),
      (∀ p ∈ pre, (assignAttrF old new p.2).2 = none) →
      (assignAttrF old new v).2 = some nv →
      assignAttrDictF old new (pre ++ (k, v) :: suf)
      = pre.map (fun p => (p.1, (assignAttrF old new p.2).1)) ++ (k, nv) :: suf := by
  intro pre
  induction pre with
  | nil =>
    intro k v suf nv _ ho
    simp only [List.nil_append, List.map_nil, assignAttrDictF, ho]
  | cons p ps ih =>
    intro k v suf nv hpre ho
    rcases p with ⟨pk, pv⟩
    have hp := hpre (pk, pv) (List.mem_cons_self _ ps)
    simp only [List.cons_append, List.map_cons, assignAttrDictF, hp]
    simp only [List.append_eq]
    rw [ih k v suf nv (fun q hq => hpre q (List.mem_cons_of_mem _ hq)) ho]

end AssignAttrLemmas

section GraphLemmas

mutual
lemma top_mem_allEntries : ∀ (g : Graph), ∀ e ∈ g.entries, e ∈ g.allEntries
  | Graph.mk es => top_mem_allEntriesList es
lemma top_mem_allEntriesList : ∀ (es : List GEntry), ∀ e ∈ es, e ∈ allEntriesList es
  | [] => by intro e he; cases he
  | GEntry.mk pid dp sub :: es => by
    intro e he
    rcases List.mem_cons.mp he with h | h
    · rw [h]
      simp [allEntriesList]
    · have := top_mem_allEntriesList es e h
      simp [allEntriesList]
      right
      right
      exact this
end

mutual
lemma sub_allEntries_subset : ∀ (g : Graph) (e : GEntry), e ∈ g.allEntries →
    ∀ e' ∈ (GEntry.sub e).allEntries, e' ∈ g.allEntries
  | Graph.mk es => sub_allEntries_subsetList es
lemma sub_allEntries_subsetList : ∀ (es : List GEntry) (e : GEntry),
    e ∈ allEntriesList es → ∀ e' ∈ (GEntry.sub e).allEntries, e' ∈ allEntriesList es
  | [] => by intro e he; cases he
  | GEntry.mk pid dp sub :: es => by
    intro e he e' he'
    simp only [allEntriesList, List.mem_cons, List.mem_append] at he ⊢
    rcases he with h | h | h
    · subst h
      right
      left
      exact he'
    · right
      left
      exact sub_allEntries_subset sub e h e' he'
    · right
      right
      exact sub_allEntries_subsetList es e h e' he'
end

/-- A child entry of a reachable entry is itself in `allEntries`. -/
lemma child_mem_allEntries (g : Graph) (e : GEntry) (he : e ∈ g.allEntries)
    (e' : GEntry) (he' : e' ∈ (GEntry.sub e).entries) : e' ∈ g.allEntries :=
  sub_allEntries_subset g e he e' (top_mem_allEntries (GEntry.sub e) e' he')

mutual
/-- In a closed cache, once the top ids of a graph fragment are cached every
id in the fragment is cached. -/
lemma closed_deep (G : Graph) (cache : List Nat)
    (hclosed : ClosedExcept G cache []) :
    ∀ (g : Graph), (∀ e ∈ g.allEntries, e ∈ G.allEntries) →
      (∀ e ∈ g.entries, GEntry.pid e ∈ cache) →
      ∀ e ∈ g.allEntries, GEntry.pid e ∈ cache
  | Graph.mk es => closed_deepList G cache hclosed es
lemma closed_deepList (G : Graph) (cache : List Nat)
    (hclosed : ClosedExcept G cache []) :
    ∀ (es : List GEntry), (∀ e ∈ allEntriesList es, e ∈ G.allEntries) →
      (∀ e ∈ es, GEntry.pid e ∈ cache) →
      ∀ e ∈ allEntriesList es, GEntry.pid e ∈ cache
  | [] => by intro _ _ e he; cases he
  | GEntry.mk pid dp sub :: es => by
    intro hsub htop e he
    simp only [allEntriesList, List.mem_cons, List.mem_append] at he
    have h0 : GEntry.pid (GEntry.mk pid dp sub) ∈ cache :=
      htop _ (List.mem_cons_self _ es)
    rcases he with h | h | h
    · subst h
      exact h0
    · have hcl := hclosed (GEntry.mk pid dp sub)
        (hsub _ (by simp [allEntriesList])) h0
      rcases hcl with hfalse | hch
      · cases hfalse
      · refine closed_deep G cache hclosed sub ?_ ?_ e h
        · intro x hx
          exact hsub x (by
            simp only [allEntriesList, List.mem_cons, List.mem_append]
            right
            left
            exact hx)
        · intro x hx
          exact hch (GEntry.pid x) (List.mem_map_of_mem GEntry.pid hx)
    · refine closed_deepList G cache hclosed es ?_
        (fun x hx => htop x (List.mem_cons_of_mem _ hx)) e h
      intro x hx
      exact hsub x (by
        simp only [allEntriesList, List.mem_cons, List.mem_append]
        right
        right
        exact hx)
end

lemma allEntriesList_cons (pid : Nat) (dp : DP) (sub : Graph) (es : List GEntry) :
    allEntriesList (GEntry.mk pid dp sub :: es)
    = GEntry.mk pid dp sub :: (Graph.allEntries sub ++ allEntriesList es) := rfl

mutual
/-- Full characterization of the `find_dps` DFS helper: starting from a
closed cache, it extends the accumulator with freshly visited ids, collects
exactly the exact-type matches among the freshly visited pipes, each at most
once, covers the top-level ids, and leaves the cache closed. -/
lemma findHelper_spec (ty : Nat) (G : Graph) (hwf : G.wf) :
    ∀ (g : Graph) (dps : List DP) (cache S : List Nat),
      (∀ e ∈ g.allEntries, e ∈ G.allEntries) →
      ClosedExcept G cache S →
      ∃ δd δc,
        (findHelper ty g (dps, cache)).1 = dps ++ δd ∧
        (findHelper ty g (dps, cache)).2 = cache ++ δc ∧
        δc.Nodup ∧ (∀ i ∈ δc, i ∉ cache) ∧
        (∀ i ∈ δc, ∃ e ∈ g.allEntries, GEntry.pid e = i) ∧
        (∀ p ∈ δd, DP.exactTy p = some ty ∧ DP.pid p ∈ δc ∧
          ∃ e ∈ g.allEntries, GEntry.dp e = p) ∧
        (δd.map DP.pid).Nodup ∧
        (∀ e ∈ G.allEntries, GEntry.pid e ∈ δc →
          DP.exactTy (GEntry.dp e) = some ty → GEntry.dp e ∈ δd) ∧
        (∀ e ∈ g.entries, GEntry.pid e ∈ cache ++ δc) ∧
        ClosedExcept G (cache ++ δc) S
  | Graph.mk es => by
    intro dps cache S hsub hcl
    have h := findHelperList_spec ty G hwf es dps cache S hsub hcl
    simpa [findHelper, Graph.entries, Graph.allEntries] using h
lemma findHelperList_spec (ty : Nat) (G : Graph) (hwf : G.wf) :
    ∀ (es : List GEntry) (dps : List DP) (cache S : List Nat),
      (∀ e ∈ allEntriesList es, e ∈ G.allEntries) →
      ClosedExcept G cache S →
      ∃ δd δc,
        (findHelperList ty es (dps, cache)).1 = dps ++ δd ∧
        (findHelperList ty es (dps, cache)).2 = cache ++ δc ∧
        δc.Nodup ∧ (∀ i ∈ δc, i ∉ cache) ∧
        (∀ i ∈ δc, ∃ e ∈ allEntriesList es, GEntry.pid e = i) ∧
        (∀ p ∈ δd, DP.exactTy p = some ty ∧ DP.pid p ∈ δc ∧
          ∃ e ∈ allEntriesList es, GEntry.dp e = p) ∧
        (δd.map DP.pid).Nodup ∧
        (∀ e ∈ G.allEntries, GEntry.pid e ∈ δc →
          DP.exactTy (GEntry.dp e) = some ty → GEntry.dp e ∈ δd) ∧
        (∀ e ∈ es, GEntry.pid e ∈ cache ++ δc) ∧
        ClosedExcept G (cache ++ δc) S
  | [] => by
    intro dps cache S hsub hcl
    refine ⟨[], [], ?_, ?_, ?_, ?_, ?_, ?_, ?_, ?_, ?_, ?_⟩ <;>
      simp [findHelperList, allEntriesList]
    exact hcl
  | GEntry.mk pid dp sub :: rest => by
    intro dps cache S hsub hcl
    have htopG : GEntry.mk pid dp sub ∈ G.allEntries := by
      apply hsub
      rw [allEntriesList_cons]
      exact List.mem_cons_self _ _
    by_cases hmem : pid ∈ cache
    · -- already cached: the whole entry is skipped
      have hstep : findHelperList ty (GEntry.mk pid dp sub :: rest) (dps, cache)
          = findHelperList ty rest (dps, cache) := by
        simp [findHelperList, hmem]
      rcases findHelperList_spec ty G hwf rest dps cache S
          (fun e he => hsub e (by
            rw [allEntriesList_cons]
            exact List.mem_cons_of_mem _ (List.mem_append_right _ he))) hcl with
        ⟨δd, δc, h1, h2, h3, h4, h5, h6, h7, h8, h9, h10⟩
      refine ⟨δd, δc, by rw [hstep]; exact h1, by rw [hstep]; exact h2, h3, h4,
        ?_, ?_, h7, h8, ?_, h10⟩
      · intro i hi
        rcases h5 i hi with ⟨e, he, hpe⟩
        exact ⟨e, by
          rw [allEntriesList_cons]
          exact List.mem_cons_of_mem _ (List.mem_append_right _ he), hpe⟩
      · intro p hp
        rcases h6 p hp with ⟨hty2, hpidp, e, he, hdpe⟩
        exact ⟨hty2, hpidp, e, by
          rw [allEntriesList_cons]
          exact List.mem_cons_of_mem _ (List.mem_append_right _ he), hdpe⟩
      · intro e he
        rcases List.mem_cons.mp he with h | h
        · subst h
          exact List.mem_append_left _ hmem
        · exact h9 e h
    · -- fresh id: cache it, maybe collect dp, recurse into sub then rest
      have hsub_sub : ∀ e ∈ (Graph.allEntries sub), e ∈ G.allEntries := by
        intro e he
        apply hsub
        rw [allEntriesList_cons]
        exact List.mem_cons_of_mem _ (List.mem_append_left _ he)
      have hcl1 : ClosedExcept G (cache ++ [pid]) (S ++ [pid]) := by
        intro e he hpe
        rcases List.mem_append.mp hpe with hc | hc
        · rcases hcl e he hc with hS | hch
          · exact Or.inl (List.mem_append_left _ hS)
          · exact Or.inr (fun i hi => List.mem_append_left _ (hch i hi))
        · rw [List.mem_singleton] at hc
          exact Or.inl (List.mem_append_right _ (by rw [hc]; exact List.mem_singleton.mpr rfl))
      rcases findHelper_spec ty G hwf sub
          (if DP.exactTy dp = some ty then dps ++ [dp] else dps) (cache ++ [pid])
          (S ++ [pid]) hsub_sub hcl1 with
        ⟨δds, δcs, hs1, hs2, hs3, hs4, hs5, hs6, hs7, hs8, hs9, hs10⟩
      have hpair : findHelper ty sub
          (if DP.exactTy dp = some ty then dps ++ [dp] else dps, cache ++ [pid])
          = ((if DP.exactTy dp = some ty then dps ++ [dp] else dps) ++ δds,
              (cache ++ [pid]) ++ δcs) := Prod.ext hs1 hs2
      have hcl2 : ClosedExcept G ((cache ++ [pid]) ++ δcs) S := by
        intro e he hpe
        rcases hs10 e he hpe with hS | hch
        · rcases List.mem_append.mp hS with h | h
          · exact Or.inl h
          · rw [List.mem_singleton] at h
            right
            have hsame := (hwf.2 e (GEntry.mk pid dp sub) he htopG
              (by rw [h]; rfl)).2
            intro i hi
            unfold childIds at hi
            rw [hsame] at hi
            have : ∀ x ∈ (GEntry.sub (GEntry.mk pid dp sub)).entries,
                GEntry.pid x ∈ (cache ++ [pid]) ++ δcs := hs9
            rcases List.mem_map.mp hi with ⟨x, hx, hpx⟩
            rw [← hpx]
            exact this x hx
        · exact Or.inr hch
      rcases findHelperList_spec ty G hwf rest
          ((if DP.exactTy dp = some ty then dps ++ [dp] else dps) ++ δds)
          ((cache ++ [pid]) ++ δcs) S
          (fun e he => hsub e (by
            rw [allEntriesList_cons]
            exact List.mem_cons_of_mem _ (List.mem_append_right _ he))) hcl2 with
        ⟨δdr, δcr, hr1, hr2, hr3, hr4, hr5, hr6, hr7, hr8, hr9, hr10⟩
      have hstep : findHelperList ty (GEntry.mk pid dp sub :: rest) (dps, cache)
          = findHelperList ty rest
              ((if DP.exactTy dp = some ty then dps ++ [dp] else dps) ++ δds,
                (cache ++ [pid]) ++ δcs) := by
        simp only [findHelperList, hmem, ite_false, if_neg]
        rw [← hpair]
      refine ⟨(if DP.exactTy dp = some ty then [dp] else []) ++ δds ++ δdr,
        [pid] ++ δcs ++ δcr, ?_, ?_, ?_, ?_, ?_, ?_, ?_, ?_, ?_, ?_⟩
      · rw [hstep, hr1]
        by_cases hty2 : DP.exactTy dp = some ty <;> simp [hty2]
      · rw [hstep, hr2]
        simp
      · -- Nodup of [pid] ++ δcs ++ δcr
        have hpid_s : pid ∉ δcs := fun h =>
          hs4 pid h (List.mem_append_right _ (List.mem_singleton.mpr rfl))
        have hpid_r : pid ∉ δcr := fun h =>
          hr4 pid h (List.mem_append_left _ (List.mem_append_right _
            (List.mem_singleton.mpr rfl)))
        have hdisj : ∀ i ∈ δcs, i ∉ δcr := fun i hi hir =>
          hr4 i hir (List.mem_append_right _ hi)
        simp only [List.cons_append, List.nil_append, List.nodup_cons,
          List.mem_append]
        refine ⟨fun h => h.elim (fun h => hpid_s h) (fun h => hpid_r h),
          List.Nodup.append hs3 hr3 hdisj⟩
      · intro i hi
        simp only [List.cons_append, List.nil_append, List.mem_cons,
          List.mem_append] at hi
        rcases hi with h | h | h
        · rw [h]; exact hmem
        · exact fun hc => hs4 i h (List.mem_append_left _ hc)
        · exact fun hc => hr4 i h (List.mem_append_left _ (List.mem_append_left _ hc))
      · intro i hi
        simp only [List.cons_append, List.nil_append, List.mem_cons,
          List.mem_append] at hi
        rcases hi with h | h | h
        · exact ⟨GEntry.mk pid dp sub, by
            rw [allEntriesList_cons]; exact List.mem_cons_self _ _, by rw [h]; rfl⟩
        · rcases hs5 i h with ⟨e, he, hpe⟩
          exact ⟨e, by
            rw [allEntriesList_cons]
            exact List.mem_cons_of_mem _ (List.mem_append_left _ he), hpe⟩
        · rcases hr5 i h with ⟨e, he, hpe⟩
          exact ⟨e, by
            rw [allEntriesList_cons]
            exact List.mem_cons_of_mem _ (List.mem_append_right _ he), hpe⟩
      · intro p hp
        simp only [List.mem_append] at hp
        rcases hp with (h | h) | h
        · have hty2 : DP.exactTy dp = some ty := by
            by_cases hc : DP.exactTy dp = some ty
            · exact hc
            · simp [hc] at h
          have hpeq : p = dp := by
            simp [hty2] at h
            exact h
          subst hpeq
          have hpidp : DP.pid p = pid := (hwf.1 _ htopG).symm
          refine ⟨hty2, by rw [hpidp]; simp, ?_⟩
          exact ⟨GEntry.mk pid p sub, by
            rw [allEntriesList_cons]; exact List.mem_cons_self _ _, rfl⟩
        · rcases hs6 p h with ⟨hty2, hpidp, e, he, hdpe⟩
          refine ⟨hty2, by
            simp only [List.cons_append, List.nil_append, List.mem_cons,
              List.mem_append]
            right; left
            exact hpidp, e, ?_, hdpe⟩
          rw [allEntriesList_cons]
          exact List.mem_cons_of_mem _ (List.mem_append_left _ he)
        · rcases hr6 p h with ⟨hty2, hpidp, e, he, hdpe⟩
          refine ⟨hty2, by
            simp only [List.cons_append, List.nil_append, List.mem_cons,
              List.mem_append]
            right; right
            exact hpidp, e, ?_, hdpe⟩
          rw [allEntriesList_cons]
          exact List.mem_cons_of_mem _ (List.mem_append_right _ he)
      · -- Nodup of collected pids
        have hsub_s : ∀ i ∈ δds.map DP.pid, i ∈ δcs := by
          intro i hi
          rcases List.mem_map.mp hi with ⟨p, hp, hpi⟩
          rw [← hpi]
          exact (hs6 p hp).2.1
        have hsub_r : ∀ i ∈ δdr.map DP.pid, i ∈ δcr := by
          intro i hi
          rcases List.mem_map.mp hi with ⟨p, hp, hpi⟩
          rw [← hpi]
          exact (hr6 p hp).2.1
        have hpid_s : pid ∉ δcs := fun h =>
          hs4 pid h (List.mem_append_right _ (List.mem_singleton.mpr rfl))
        have hpid_r : pid ∉ δcr := fun h =>
          hr4 pid h (List.mem_append_left _ (List.mem_append_right _
            (List.mem_singleton.mpr rfl)))
        have hdisj : ∀ i ∈ δcs, i ∉ δcr := fun i hi hir =>
          hr4 i hir (List.mem_append_right _ hi)
        have hnd2 : (δds.map DP.pid ++ δdr.map DP.pid).Nodup :=
          List.Nodup.append hs7 hr7
            (fun i hi hir => hdisj i (hsub_s i hi) (hsub_r i hir))
        by_cases hty2 : DP.exactTy dp = some ty
        · rw [if_pos hty2]
          have heq : List.map DP.pid (([dp] ++ δds) ++ δdr)
              = DP.pid dp :: (δds.map DP.pid ++ δdr.map DP.pid) := by
            simp
          rw [heq, List.nodup_cons]
          constructor
          · intro hc
            have hpidp : DP.pid dp = pid := (hwf.1 _ htopG).symm
            rw [hpidp] at hc
            rcases List.mem_append.mp hc with h | h
            · exact hpid_s (hsub_s pid h)
            · exact hpid_r (hsub_r pid h)
          · exact hnd2
        · rw [if_neg hty2]
          have heq : List.map DP.pid (([] ++ δds) ++ δdr)
              = δds.map DP.pid ++ δdr.map DP.pid := by simp
          rw [heq]
          exact hnd2
      · intro e he hpe hty2
        have hpe2 : GEntry.pid e = pid ∨ GEntry.pid e ∈ δcs ∨ GEntry.pid e ∈ δcr := by
          rcases List.mem_append.mp hpe with h | h
          · rcases List.mem_append.mp h with h2 | h2
            · exact Or.inl (List.mem_singleton.mp h2)
            · exact Or.inr (Or.inl h2)
          · exact Or.inr (Or.inr h)
        rcases hpe2 with h | h | h
        · have hsame := hwf.2 e (GEntry.mk pid dp sub) he htopG (by rw [h]; rfl)
          have hdpe : GEntry.dp e = dp := by rw [hsame.1]; rfl
          rw [hdpe] at hty2 ⊢
          rw [if_pos hty2]
          exact List.mem_append_left _
            (List.mem_append_left _ (List.mem_singleton.mpr rfl))
        · exact List.mem_append_left _ (List.mem_append_right _ (hs8 e he h hty2))
        · exact List.mem_append_right _ (hr8 e he h hty2)
      · intro e he
        rcases List.mem_cons.mp he with h | h
        · subst h
          refine List.mem_append_right _ ?_
          exact List.mem_append_left _
            (List.mem_append_left _ (List.mem_singleton.mpr rfl))
        · have h9 := hr9 e h
          rcases List.mem_append.mp h9 with h1 | h1
          · rcases List.mem_append.mp h1 with h2 | h2
            · rcases List.mem_append.mp h2 with h3 | h3
              · exact List.mem_append_left _ h3
              · exact List.mem_append_right _
                  (List.mem_append_left _ (List.mem_append_left _ h3))
            · exact List.mem_append_right _
                (List.mem_append_left _ (List.mem_append_right _ h2))
          · exact List.mem_append_right _ (List.mem_append_right _ h1)
      · have : cache ++ ([pid] ++ δcs ++ δcr) = ((cache ++ [pid]) ++ δcs) ++ δcr := by
          simp [List.append_assoc]
        rw [this]
        exact hr10
end

/-- Caching one fresh id that some entry carries strictly shrinks the set of
uncached entries. -/
lemma filter_strict_drop (l : List GEntry) (cache : List Nat) (x : Nat)
    (hx : x ∉ cache) (he : ∃ e ∈ l, GEntry.pid e = x) :
    (l.filter (fun e => decide (¬ GEntry.pid e ∈ cache ++ [x]))).length
      < (l.filter (fun e => decide (¬ GEntry.pid e ∈ cache))).length := by
  have hsub : List.Sublist
      (l.filter (fun e => decide (¬ GEntry.pid e ∈ cache ++ [x])))
      (l.filter (fun e => decide (¬ GEntry.pid e ∈ cache))) := by
    apply List.monotone_filter_right
    intro e hcond
    simp only [decide_eq_true_eq, List.mem_append, List.mem_singleton] at hcond ⊢
    exact fun hc => hcond (Or.inl hc)
  rcases he with ⟨e, hel, hpe⟩
  have h2 : e ∈ l.filter (fun e => decide (¬ GEntry.pid e ∈ cache)) :=
    List.mem_filter.mpr ⟨hel, by simp [hpe, hx]⟩
  have h1 : e ∉ l.filter (fun e => decide (¬ GEntry.pid e ∈ cache ++ [x])) := by
    intro hc
    have := (List.mem_filter.mp hc).2
    simp [hpe] at this
  rcases Nat.lt_or_ge
      (l.filter (fun e => decide (¬ GEntry.pid e ∈ cache ++ [x]))).length
      (l.filter (fun e => decide (¬ GEntry.pid e ∈ cache))).length with h | h
  · exact h
  · exfalso
    have heq := hsub.eq_of_length (le_antisymm hsub.length_le h)
    rw [heq] at h1
    exact h1 h2

/-- Caching a batch of fresh ids, each carried by some entry, shrinks the
set of uncached entries by at least the batch size. -/
lemma filter_notmem_drop (l : List GEntry) :
    ∀ (newids : List Nat) (cache : List Nat),
      newids.Nodup → (∀ i ∈ newids, i ∉ cache) →
      (∀ i ∈ newids, ∃ e ∈ l, GEntry.pid e = i) →
      (l.filter (fun e => decide (¬ GEntry.pid e ∈ cache ++ newids))).length
          + newids.length
        ≤ (l.filter (fun e => decide (¬ GEntry.pid e ∈ cache))).length
  | [], cache => by simp
  | x :: xs, cache => by
    intro hnd hfresh horig
    have h1 := filter_strict_drop l cache x (hfresh x (List.mem_cons_self x xs))
      (horig x (List.mem_cons_self x xs))
    have h2 := filter_notmem_drop l xs (cache ++ [x]) (List.nodup_cons.mp hnd).2
      (fun i hi => by
        intro hc
        rcases List.mem_append.mp hc with h | h
        · exact hfresh i (List.mem_cons_of_mem _ hi) h
        · rw [List.mem_singleton] at h
          exact (List.nodup_cons.mp hnd).1 (h ▸ hi))
      (fun i hi => horig i (List.mem_cons_of_mem _ hi))
    have heq : cache ++ x :: xs = (cache ++ [x]) ++ xs :=
      List.append_cons cache x xs
    rw [heq]
    simp only [List.length_cons]
    omega

/-- Characterization of the enqueue step of `list_dps`: it appends exactly
the entries with fresh ids, caching their ids, and afterwards every offered
entry id is cached. -/
lemma enqueueNew_spec :
    ∀ (children q : List GEntry) (cache : List Nat),
      ∃ fresh : List GEntry,
        enqueueNew children q cache = (q ++ fresh, cache ++ fresh.map GEntry.pid) ∧
        (fresh.map GEntry.pid).Nodup ∧
        (∀ e ∈ fresh, e ∈ children ∧ GEntry.pid e ∉ cache) ∧
        (∀ c ∈ children, GEntry.pid c ∈ cache ++ fresh.map GEntry.pid)
  | [], q, cache => by
    refine ⟨[], by simp [enqueueNew], by simp, by simp, by simp⟩
  | GEntry.mk pid dp sub :: rest, q, cache => by
    by_cases h : pid ∈ cache
    · rcases enqueueNew_spec rest q cache with ⟨fresh, h1, h2, h3, h4⟩
      refine ⟨fresh, ?_, h2, ?_, ?_⟩
      · rw [← h1]
        simp [enqueueNew, h]
      · exact fun e he => ⟨List.mem_cons_of_mem _ (h3 e he).1, (h3 e he).2⟩
      · intro c hc
        rcases List.mem_cons.mp hc with hc2 | hc2
        · subst hc2
          exact List.mem_append_left _ h
        · exact h4 c hc2
    · rcases enqueueNew_spec rest (q ++ [GEntry.mk pid dp sub]) (cache ++ [pid]) with
        ⟨fresh, h1, h2, h3, h4⟩
      refine ⟨GEntry.mk pid dp sub :: fresh, ?_, ?_, ?_, ?_⟩
      · have hstep : enqueueNew (GEntry.mk pid dp sub :: rest) q cache
            = enqueueNew rest (q ++ [GEntry.mk pid dp sub]) (cache ++ [pid]) := by
          simp [enqueueNew, h]
        rw [hstep, h1]
        simp [GEntry.pid]
      · simp only [List.map_cons, List.nodup_cons]
        refine ⟨?_, h2⟩
        intro hc
        rcases List.mem_map.mp hc with ⟨e, he, hpe⟩
        exact (h3 e he).2 (List.mem_append_right _ (by
          rw [List.mem_singleton]
          exact hpe.symm ▸ rfl))
      · intro e he
        rcases List.mem_cons.mp he with h2c | h2c
        · subst h2c
          exact ⟨List.mem_cons_self _ _, h⟩
        · refine ⟨List.mem_cons_of_mem _ (h3 e h2c).1, ?_⟩
          intro hc
          exact (h3 e h2c).2 (List.mem_append_left _ hc)
      · intro c hc
        rcases List.mem_cons.mp hc with h2c | h2c
        · subst h2c
          refine List.mem_append_right _ ?_
          simp
        · have := h4 c h2c
          rcases List.mem_append.mp this with h3c | h3c
          · rcases List.mem_append.mp h3c with h4c | h4c
            · exact List.mem_append_left _ h4c
            · refine List.mem_append_right _ ?_
              rw [List.mem_singleton] at h4c
              rw [List.map_cons]
              exact List.mem_cons.mpr (Or.inl h4c)
          · refine List.mem_append_right _ ?_
            simp only [List.map_cons, List.mem_cons]
            right
            exact h3c

/-- Full characterization of the BFS loop of `list_dps`: with enough fuel it
emits, beyond the accumulator, pipes with pairwise distinct ids, each the
pipe of some graph entry whose id was queued or previously uncached, drains
the queue, and ends with a closed cache consisting of the initial cache plus
the emitted ids. -/
lemma listLoop_spec (G : Graph) (hwf : G.wf) :
    ∀ (fuel : Nat) (q : List GEntry) (cache : List Nat) (dps : List DP),
      (∀ e ∈ q, e ∈ G.allEntries) →
      (∀ e ∈ q, GEntry.pid e ∈ cache) →
      (q.map GEntry.pid).Nodup →
      (∀ p ∈ dps, DP.pid p ∈ cache) →
      (∀ p ∈ dps, DP.pid p ∉ q.map GEntry.pid) →
      (dps.map DP.pid).Nodup →
      (∀ e ∈ G.allEntries, GEntry.pid e ∈ cache →
        GEntry.pid e ∈ q.map GEntry.pid ∨ (∀ i ∈ childIds e, i ∈ cache)) →
      (G.allEntries.filter (fun e => decide (¬ GEntry.pid e ∈ cache))).length
          + q.length ≤ fuel →
      ∃ (Δ : List DP) (cacheF : List Nat),
        listLoop fuel q cache dps = dps ++ Δ ∧
        ((dps ++ Δ).map DP.pid).Nodup ∧
        (∀ p ∈ Δ, ∃ e ∈ G.allEntries, GEntry.dp e = p) ∧
        (∀ p ∈ Δ, DP.pid p ∈ q.map GEntry.pid ∨ DP.pid p ∉ cache) ∧
        (∀ i ∈ cache, i ∈ cacheF) ∧
        (∀ e ∈ G.allEntries, GEntry.pid e ∈ cacheF → ∀ i ∈ childIds e, i ∈ cacheF) ∧
        (∀ i ∈ cacheF, i ∈ cache ∨ i ∈ Δ.map DP.pid) ∧
        (∀ e ∈ q, GEntry.pid e ∈ Δ.map DP.pid) := by
  intro fuel
  induction fuel with
  | zero =>
    intro q cache dps hq hqc hqnd hdc hdq hdnd hinv hfuel
    have hqnil : q = [] := by
      have : q.length = 0 := by omega
      exact List.length_eq_zero.mp this
    subst hqnil
    refine ⟨[], cache, by simp [listLoop], by simpa using hdnd, by simp, by simp,
      fun i hi => hi, ?_, fun i hi => Or.inl hi, by simp⟩
    intro e he hpe i hi
    rcases hinv e he hpe with h | h
    · simp at h
    · exact h i hi
  | succ fuel ih =>
    intro q cache dps hq hqc hqnd hdc hdq hdnd hinv hfuel
    match q, hq, hqc, hqnd, hdq, hfuel with
    | [], hq, hqc, hqnd, hdq, hfuel =>
      refine ⟨[], cache, by simp [listLoop], by simpa using hdnd, by simp, by simp,
        fun i hi => hi, ?_, fun i hi => Or.inl hi, by simp⟩
      intro e he hpe i hi
      rcases hinv e he hpe with h | h
      · simp at h
      · exact h i hi
    | GEntry.mk pid0 dp0 sub0 :: qrest, hq, hqc, hqnd, hdq, hfuel =>
      have hq0 : GEntry.mk pid0 dp0 sub0 ∈ G.allEntries :=
        hq _ (List.mem_cons_self _ _)
      have hpid0c : pid0 ∈ cache := hqc _ (List.mem_cons_self _ _)
      have hdp0pid : DP.pid dp0 = pid0 := (hwf.1 _ hq0).symm
      rcases enqueueNew_spec sub0.entries qrest cache with ⟨fresh, he1, he2, he3, he4⟩
      have hstep : listLoop (fuel + 1) (GEntry.mk pid0 dp0 sub0 :: qrest) cache dps
          = listLoop fuel (qrest ++ fresh) (cache ++ fresh.map GEntry.pid)
              (dps ++ [dp0]) := by
        simp only [listLoop]
        rw [he1]
      have hfreshG : ∀ e ∈ fresh, e ∈ G.allEntries := fun e he =>
        child_mem_allEntries G _ hq0 e (he3 e he).1
      have hq' : ∀ e ∈ qrest ++ fresh, e ∈ G.allEntries := by
        intro e he
        rcases List.mem_append.mp he with h | h
        · exact hq e (List.mem_cons_of_mem _ h)
        · exact hfreshG e h
      have hqc' : ∀ e ∈ qrest ++ fresh, GEntry.pid e ∈ cache ++ fresh.map GEntry.pid := by
        intro e he
        rcases List.mem_append.mp he with h | h
        · exact List.mem_append_left _ (hqc e (List.mem_cons_of_mem _ h))
        · exact List.mem_append_right _ (List.mem_map_of_mem _ h)
      have hqnd' : ((qrest ++ fresh).map GEntry.pid).Nodup := by
        rw [List.map_append]
        refine List.Nodup.append (List.nodup_cons.mp (by simpa using hqnd)).2 he2 ?_
        intro i hi hif
        rcases List.mem_map.mp hi with ⟨e, he, hpe⟩
        rcases List.mem_map.mp hif with ⟨e2, he2m, hpe2⟩
        have : GEntry.pid e2 ∈ cache := by
          rw [hpe2, ← hpe]
          exact hqc e (List.mem_cons_of_mem _ he)
        exact (he3 e2 he2m).2 this
      have hdc' : ∀ p ∈ dps ++ [dp0], DP.pid p ∈ cache ++ fresh.map GEntry.pid := by
        intro p hp
        rcases List.mem_append.mp hp with h | h
        · exact List.mem_append_left _ (hdc p h)
        · rw [List.mem_singleton] at h
          subst h
          rw [hdp0pid]
          exact List.mem_append_left _ hpid0c
      have hdq' : ∀ p ∈ dps ++ [dp0],
          DP.pid p ∉ (qrest ++ fresh).map GEntry.pid := by
        intro p hp hc
        rw [List.map_append] at hc
        rcases List.mem_append.mp hc with h | h
        · rcases List.mem_append.mp hp with h2 | h2
          · exact hdq p h2 (by
              simp only [List.map_cons, List.mem_cons]
              right
              exact h)
          · rw [List.mem_singleton] at h2
            subst h2
            rw [hdp0pid] at h
            exact (List.nodup_cons.mp (by simpa using hqnd)).1 h
        · rcases List.mem_map.mp h with ⟨e, he, hpe⟩
          have hpc : DP.pid p ∈ cache := by
            rcases List.mem_append.mp hp with h2 | h2
            · exact hdc p h2
            · rw [List.mem_singleton] at h2
              subst h2
              rw [hdp0pid]
              exact hpid0c
          rw [← hpe] at hpc
          exact (he3 e he).2 hpc
      have hdnd' : ((dps ++ [dp0]).map DP.pid).Nodup := by
        rw [List.map_append]
        refine List.Nodup.append hdnd (by simp) ?_
        intro i hi hif
        simp only [List.map_cons, List.map_nil, List.mem_singleton] at hif
        subst hif
        rcases List.mem_map.mp hi with ⟨p, hp, hpe⟩
        apply hdq p hp
        rw [hpe, hdp0pid]
        exact List.mem_cons_self _ _
      have hinv' : ∀ e ∈ G.allEntries,
          GEntry.pid e ∈ cache ++ fresh.map GEntry.pid →
          GEntry.pid e ∈ (qrest ++ fresh).map GEntry.pid ∨
            (∀ i ∈ childIds e, i ∈ cache ++ fresh.map GEntry.pid) := by
        intro e he hpe
        rcases List.mem_append.mp hpe with h | h
        · rcases hinv e he h with h2 | h2
          · simp only [List.map_cons, List.mem_cons] at h2
            rcases h2 with h3 | h3
            · right
              have hsame := (hwf.2 e (GEntry.mk pid0 dp0 sub0) he hq0 (by
                rw [h3])).2
              intro i hi
              unfold childIds at hi
              rw [hsame] at hi
              rcases List.mem_map.mp hi with ⟨x, hx, hpx⟩
              rw [← hpx]
              exact he4 x hx
            · left
              rw [List.map_append]
              exact List.mem_append_left _ h3
          · exact Or.inr (fun i hi => List.mem_append_left _ (h2 i hi))
        · left
          rw [List.map_append]
          exact List.mem_append_right _ h
      have hfuel' : (G.allEntries.filter
            (fun e => decide (¬ GEntry.pid e ∈ cache ++ fresh.map GEntry.pid))).length
          + (qrest ++ fresh).length ≤ fuel := by
        have hdrop := filter_notmem_drop G.allEntries (fresh.map GEntry.pid) cache
          he2 (fun i hi => by
            rcases List.mem_map.mp hi with ⟨e, he, hpe⟩
            rw [← hpe]
            exact (he3 e he).2)
          (fun i hi => by
            rcases List.mem_map.mp hi with ⟨e, he, hpe⟩
            exact ⟨e, hfreshG e he, hpe⟩)
        simp only [List.length_append, List.length_map] at hdrop ⊢
        simp only [List.length_cons] at hfuel
        omega
      rcases ih (qrest ++ fresh) (cache ++ fresh.map GEntry.pid) (dps ++ [dp0])
        hq' hqc' hqnd' hdc' hdq' hdnd' hinv' hfuel' with
        ⟨Δ2, cacheF, i1, i2, i3, i4, i5, i6, i7, i8⟩
      refine ⟨dp0 :: Δ2, cacheF, ?_, ?_, ?_, ?_, ?_, i6, ?_, ?_⟩
      · rw [hstep, i1]
        simp
      · have : dps ++ dp0 :: Δ2 = (dps ++ [dp0]) ++ Δ2 := by simp
        rw [this]
        exact i2
      · intro p hp
        rcases List.mem_cons.mp hp with h | h
        · subst h
          exact ⟨GEntry.mk pid0 p sub0, hq0, rfl⟩
        · exact i3 p h
      · intro p hp
        rcases List.mem_cons.mp hp with h | h
        · subst h
          left
          rw [hdp0pid]
          exact List.mem_cons_self _ _
        · rcases i4 p h with h2 | h2
          · rw [List.map_append] at h2
            rcases List.mem_append.mp h2 with h3 | h3
            · left
              simp only [List.map_cons, List.mem_cons]
              right
              exact h3
            · right
              rcases List.mem_map.mp h3 with ⟨e, he, hpe⟩
              rw [← hpe]
              exact (he3 e he).2
          · right
            intro hc
            exact h2 (List.mem_append_left _ hc)
      · exact fun i hi => i5 i (List.mem_append_left _ hi)
      · intro i hi
        rcases i7 i hi with h | h
        · rcases List.mem_append.mp h with h2 | h2
          · exact Or.inl h2
          · right
            rcases List.mem_map.mp h2 with ⟨e, he, hpe⟩
            have := i8 e (List.mem_append_right _ he)
            simp only [List.map_cons, List.mem_cons]
            right
            rw [← hpe]
            exact this
        · right
          simp only [List.map_cons, List.mem_cons]
          right
          exact h
      · intro e he
        rcases List.mem_cons.mp he with h | h
        · subst h
          simp only [List.map_cons, List.mem_cons]
          left
          rw [hdp0pid]
          rfl
        · have := i8 e (List.mem_append_left _ h)
          simp only [List.map_cons, List.mem_cons]
          right
          exact this

/-- In a list of pipes with pairwise distinct ids, filtering by the id of a
member that is the unique carrier of its id yields exactly that member. -/
lemma filter_pid_eq_singleton (Q : DP) :
    ∀ (l : List DP), (l.map DP.pid).Nodup → Q ∈ l →
      (∀ p ∈ l, DP.pid p = DP.pid Q → p = Q) →
      l.filter (fun p => decide (DP.pid p = DP.pid Q)) = [Q]
  | [] => by intro _ hmem _; cases hmem
  | a :: l => by
    intro hnd hmem huniq
    by_cases ha : DP.pid a = DP.pid Q
    · have haQ : a = Q := huniq a (List.mem_cons_self a l) ha
      subst haQ
      have hnotin : DP.pid a ∉ l.map DP.pid := (List.nodup_cons.mp hnd).1
      have hfl : l.filter (fun p => decide (DP.pid p = DP.pid a)) = [] := by
        rw [List.filter_eq_nil_iff]
        intro p hp
        simp only [decide_eq_true_eq]
        intro hpe
        exact hnotin (hpe ▸ List.mem_map_of_mem DP.pid hp)
      simp [List.filter_cons, hfl]
    · have hQl : Q ∈ l := by
        rcases List.mem_cons.mp hmem with h | h
        · exact absurd (by rw [h]) ha
        · exact h
      have hrec := filter_pid_eq_singleton Q l (List.nodup_cons.mp hnd).2 hQl
        (fun p hp hpe => huniq p (List.mem_cons_of_mem _ hp) hpe)
      simp [List.filter_cons, ha, hrec]

lemma Graph.allEntries_eq (g : Graph) : g.allEntries = allEntriesList g.entries := by
  cases g
  rfl

lemma allEntriesList_append : ∀ (es1 es2 : List GEntry),
    allEntriesList (es1 ++ es2) = allEntriesList es1 ++ allEntriesList es2
  | [], es2 => by simp [allEntriesList]
  | GEntry.mk pid dp sub :: es1, es2 => by
    simp only [List.cons_append, allEntriesList, List.append_eq,
      allEntriesList_append es1 es2, List.append_assoc]

lemma wf_of_subset {Gb g : Graph} (hwf : Gb.wf)
    (h : ∀ e ∈ g.allEntries, e ∈ Gb.allEntries) : g.wf :=
  ⟨fun e he => hwf.1 e (h e he),
    fun e e2 he he2 hp => hwf.2 e e2 (h e he) (h e2 he2) hp⟩

lemma traverse_allEntries (p : DP) :
    (traverse_dps p).allEntries
    = GEntry.mk (DP.pid p) p (subgraphOf p) :: (subgraphOf p).allEntries := by
  simp [traverse_dps, Graph.allEntries, allEntriesList]

/-- Characterization of `list_dps` without exclusions, run from a pre-marked
closed cache: the output ids are pairwise distinct and disjoint from the
pre-marked set, every output pipe is an entry's pipe, and every entry whose
id is not pre-marked has its pipe in the output. -/
lemma list_dps_core_spec (G : Graph) (hwf : G.wf) (cache0 : List Nat)
    (hc0 : ∀ e ∈ G.allEntries, GEntry.pid e ∈ cache0 → ∀ i ∈ childIds e, i ∈ cache0) :
    ((list_dps_core G cache0).map DP.pid).Nodup
    ∧ (∀ p ∈ list_dps_core G cache0, DP.pid p ∉ cache0)
    ∧ (∀ p ∈ list_dps_core G cache0, ∃ e ∈ G.allEntries, GEntry.dp e = p)
    ∧ (∀ e ∈ G.allEntries, GEntry.pid e ∉ cache0 →
        GEntry.dp e ∈ list_dps_core G cache0) := by
  rcases enqueueNew_spec G.entries [] cache0 with ⟨fresh0, he1, he2, he3, he4⟩
  have hcore : list_dps_core G cache0
      = listLoop (G.allEntries.length + fresh0.length + 1) fresh0
          (cache0 ++ fresh0.map GEntry.pid) [] := by
    unfold list_dps_core
    rw [he1]
    simp
  obtain ⟨Δ, cacheF, i1, i2, i3, i4, i5, i6, i7, i8⟩ :=
    listLoop_spec G hwf (G.allEntries.length + fresh0.length + 1) fresh0
      (cache0 ++ fresh0.map GEntry.pid) []
      (fun e he => top_mem_allEntries G e (he3 e he).1)
      (fun e he => List.mem_append_right _ (List.mem_map_of_mem _ he))
      he2 (by simp) (by simp) (by simp)
      (by
        intro e he hpe
        rcases List.mem_append.mp hpe with h | h
        · exact Or.inr (fun i hi => List.mem_append_left _ (hc0 e he h i hi))
        · exact Or.inl h)
      (by
        have := List.length_filter_le
          (fun e => decide (¬ GEntry.pid e ∈ cache0 ++ fresh0.map GEntry.pid))
          G.allEntries
        omega)
  have hres : list_dps_core G cache0 = Δ := by
    rw [hcore, i1]
    simp
  have hfresh_pid : ∀ i ∈ fresh0.map GEntry.pid, i ∉ cache0 := by
    intro i hi
    rcases List.mem_map.mp hi with ⟨e, he, hpe⟩
    rw [← hpe]
    exact (he3 e he).2
  refine ⟨by rw [hres]; simpa using i2, ?_, by rw [hres]; exact i3, ?_⟩
  · intro p hp
    rw [hres] at hp
    rcases i4 p hp with h | h
    · exact hfresh_pid _ h
    · exact fun hc => h (List.mem_append_left _ hc)
  · intro e he hpe
    have hcov : ∀ x ∈ G.allEntries, GEntry.pid x ∈ cacheF := by
      apply closed_deep G cacheF
      · intro x hx hpx
        exact Or.inr (i6 x hx hpx)
      · exact fun x hx => hx
      · intro x hx
        exact i5 _ (he4 x hx)
    have hpe2 := hcov e he
    rcases i7 _ hpe2 with h | h
    · rcases List.mem_append.mp h with h2 | h2
      · exact absurd h2 hpe
      · rcases List.mem_map.mp h2 with ⟨fe, hfe, hpfe⟩
        have hfein := i8 fe hfe
        rw [hpfe] at hfein
        rcases List.mem_map.mp hfein with ⟨p, hp, hpp⟩
        rcases i3 p hp with ⟨ep, hep, hdep⟩
        have hppid : GEntry.pid ep = GEntry.pid e := by
          have h1 := hwf.1 ep hep
          rw [h1, hdep, hpp]
        have := (hwf.2 ep e hep he hppid).1
        rw [hres, ← this, hdep]
        exact hp
    · rcases List.mem_map.mp h with ⟨p, hp, hpp⟩
      rcases i3 p hp with ⟨ep, hep, hdep⟩
      have hppid : GEntry.pid ep = GEntry.pid e := by
        have h1 := hwf.1 ep hep
        rw [h1, hdep, hpp]
      have := (hwf.2 ep e hep he hppid).1
      rw [hres, ← this, hdep]
      exact hp

/-- The exclusion pre-marking covers, deeply and closedly, every entry of the
full traversal of every excluded pipe. -/
lemma excludeCache_spec (Gb : Graph) (hwf : Gb.wf) :
    ∀ (excl : List DP) (cache : List Nat),
      (∀ ex ∈ excl, GEntry.mk (DP.pid ex) ex (subgraphOf ex) ∈ Gb.allEntries) →
      (∀ e ∈ Gb.allEntries, GEntry.pid e ∈ cache →
        ∀ e2 ∈ (GEntry.sub e).allEntries, GEntry.pid e2 ∈ cache) →
      (∀ i ∈ cache, i ∈ excludeCache excl cache) ∧
      (∀ e ∈ Gb.allEntries, GEntry.pid e ∈ excludeCache excl cache →
        ∀ e2 ∈ (GEntry.sub e).allEntries, GEntry.pid e2 ∈ excludeCache excl cache) ∧
      (∀ ex ∈ excl, ∀ e ∈ (traverse_dps ex).allEntries,
        GEntry.pid e ∈ excludeCache excl cache)
  | [], cache => by
    intro _ hdeep
    exact ⟨fun i hi => hi, fun e he hpe => hdeep e he hpe, fun ex hex => absurd hex
      (List.not_mem_nil ex)⟩
  | ex :: rest, cache => by
    intro hcont hdeep
    have hdesig : GEntry.mk (DP.pid ex) ex (subgraphOf ex) ∈ Gb.allEntries :=
      hcont ex (List.mem_cons_self _ _)
    have hsubT : ∀ e ∈ (traverse_dps ex).allEntries, e ∈ Gb.allEntries := by
      intro e he
      rw [traverse_allEntries] at he
      rcases List.mem_cons.mp he with h | h
      · rw [h]
        exact hdesig
      · exact sub_allEntries_subset Gb _ hdesig e h
    by_cases hx : DP.pid ex ∈ cache
    · have hstep : excludeCache (ex :: rest) cache = excludeCache rest cache := by
        simp only [excludeCache]
        split
        · rfl
        · rename_i hneg
          exact absurd hx hneg
      rcases excludeCache_spec Gb hwf rest cache
        (fun x hxr => hcont x (List.mem_cons_of_mem _ hxr)) hdeep with ⟨p1, p2, p3⟩
      rw [hstep]
      refine ⟨p1, p2, ?_⟩
      intro x hxm e he
      rcases List.mem_cons.mp hxm with h | h
      · subst h
        rw [traverse_allEntries] at he
        rcases List.mem_cons.mp he with h2 | h2
        · rw [h2]
          exact p1 _ hx
        · exact p1 _ (hdeep _ hdesig hx e (by
            show e ∈ (GEntry.sub (GEntry.mk (DP.pid x) x (subgraphOf x))).allEntries
            exact h2))
      · exact p3 x h e he
    · have hwfT : (traverse_dps ex).wf := wf_of_subset hwf hsubT
      have hlisted := list_dps_core_spec (traverse_dps ex) hwfT []
        (by intro e _ h; cases h)
      have hlistedcov : ∀ e ∈ (traverse_dps ex).allEntries,
          GEntry.pid e ∈ (list_dps_core (traverse_dps ex) []).map DP.pid := by
        intro e he
        have := hlisted.2.2.2 e he (List.not_mem_nil _)
        have hpe : GEntry.pid e = DP.pid (GEntry.dp e) := hwfT.1 e he
        rw [hpe]
        exact List.mem_map_of_mem _ this
      have hstep : excludeCache (ex :: rest) cache
          = excludeCache rest
              (cache ++ ((list_dps_core (traverse_dps ex) []).map DP.pid).filter
                (fun i => !(i ∈ cache))) := by
        simp only [excludeCache]
        split
        · rename_i hpos
          exact absurd hpos hx
        · rfl
      have hsub2 : ∀ i ∈ (list_dps_core (traverse_dps ex) []).map DP.pid,
          i ∈ cache ++ ((list_dps_core (traverse_dps ex) []).map DP.pid).filter
            (fun i => !(i ∈ cache)) := by
        intro i hi
        by_cases hic : i ∈ cache
        · exact List.mem_append_left _ hic
        · exact List.mem_append_right _ (List.mem_filter.mpr ⟨hi, by simp [hic]⟩)
      have hdeep2 : ∀ e ∈ Gb.allEntries,
          GEntry.pid e ∈ cache ++ ((list_dps_core (traverse_dps ex) []).map
            DP.pid).filter (fun i => !(i ∈ cache)) →
          ∀ e2 ∈ (GEntry.sub e).allEntries,
            GEntry.pid e2 ∈ cache ++ ((list_dps_core (traverse_dps ex) []).map
              DP.pid).filter (fun i => !(i ∈ cache)) := by
        intro e he hpe e2 he2
        rcases List.mem_append.mp hpe with h | h
        · exact List.mem_append_left _ (hdeep e he h e2 he2)
        · have h2 := (List.mem_filter.mp h).1
          rcases List.mem_map.mp h2 with ⟨p, hp, hpp⟩
          rcases hlisted.2.2.1 p hp with ⟨et, het, hdet⟩
          have hetG : et ∈ Gb.allEntries := hsubT et het
          have hpidet : GEntry.pid et = GEntry.pid e := by
            have h1 := hwf.1 et hetG
            rw [h1, hdet, hpp]
          have hsame := (hwf.2 et e hetG (by assumption) hpidet).2
          have he2t : e2 ∈ (GEntry.sub et).allEntries := by
            rw [hsame]
            exact he2
          have he2T : e2 ∈ (traverse_dps ex).allEntries :=
            sub_allEntries_subset (traverse_dps ex) et het e2 he2t
          exact hsub2 _ (hlistedcov e2 he2T)
      rcases excludeCache_spec Gb hwf rest
          (cache ++ ((list_dps_core (traverse_dps ex) []).map DP.pid).filter
            (fun i => !(i ∈ cache)))
          (fun x hxr => hcont x (List.mem_cons_of_mem _ hxr)) hdeep2 with ⟨p1, p2, p3⟩
      rw [hstep]
      refine ⟨fun i hi => p1 i (List.mem_append_left _ hi), p2, ?_⟩
      intro x hxm e he
      rcases List.mem_cons.mp hxm with h | h
      · subst h
        exact p1 _ (hsub2 _ (hlistedcov e he))
      · exact p3 x h e he

end GraphLemmas

section ReplaceLemmas

lemma isRefOf_iff (v : HVal) (p : Nat) : isRefOf v p = true ↔ v = HVal.ref p := by
  cases v <;> simp [isRefOf]

lemma isRefOf_false_of_not_ref (o : HVal) (q : Nat) (h : q ∉ valRefs o) :
    isRefOf o q = false := by
  cases o with
  | ref p =>
    simp [valRefs] at h
    simp [isRefOf]
    omega
  | atomV t => rfl
  | dictV es => rfl
  | tupV es => rfl
  | listV es => rfl
  | setV es => rfl

lemma elemsRefs_subset : ∀ (es : List HVal), ∀ o ∈ es, ∀ q ∈ valRefs o, q ∈ elemsRefs es
  | [], o, ho => absurd ho (List.not_mem_nil o)
  | v :: rest, o, ho => by
    intro q hq
    rcases List.mem_cons.mp ho with h | h
    · subst h
      simp only [elemsRefs, List.mem_append]
      exact Or.inl hq
    · simp only [elemsRefs, List.mem_append]
      exact Or.inr (elemsRefs_subset rest o h q hq)

lemma dictRefs_subset : ∀ (es : List (String × HVal)), ∀ kv ∈ es,
    ∀ q ∈ valRefs kv.2, q ∈ dictRefs es
  | [], kv, hkv => absurd hkv (List.not_mem_nil kv)
  | (k, v) :: rest, kv, hkv => by
    intro q hq
    rcases List.mem_cons.mp hkv with h | h
    · subst h
      simp only [dictRefs, List.mem_append]
      exact Or.inl hq
    · simp only [dictRefs, List.mem_append]
      exact Or.inr (dictRefs_subset rest kv h q hq)

lemma assignAttrF_shallow (old new : Nat) (v : HVal) (hs : shallowVal v = true) :
    assignAttrF old new v
      = (v, if isRefOf v old then some (HVal.ref new) else none) := by
  cases v with
  | ref p =>
    by_cases hp : p = old
    · subst hp
      simp [assignAttrF, isRefOf]
    · simp [assignAttrF, isRefOf, hp]
  | atomV t => simp [assignAttrF, isRefOf]
  | dictV es => simp [shallowVal] at hs
  | tupV es => simp [shallowVal] at hs
  | listV es => simp [shallowVal] at hs
  | setV es => simp [shallowVal] at hs

lemma assignAttrTupF_shallow_char (old new : Nat) :
    ∀ es : List HVal, es.all shallowVal = true →
      assignAttrTupF old new es
        = (es.map (fun o => if isRefOf o old then HVal.ref new else o),
           es.any (fun o => isRefOf o old)) := by
  intro es
  induction es with
  | nil => intro _; simp [assignAttrTupF]
  | cons o os ih =>
    intro hall
    simp only [List.all_cons, Bool.and_eq_true] at hall
    have ho := assignAttrF_shallow old new o hall.1
    by_cases hro : isRefOf o old = true
    · simp [assignAttrTupF, ho, hro, ih hall.2]
    · simp only [Bool.not_eq_true] at hro
      simp [assignAttrTupF, ho, hro, ih hall.2]

lemma mapped_shallow (old new : Nat) (es : List HVal) (hall : es.all shallowVal = true) :
    (es.map (fun o => if isRefOf o old then HVal.ref new else o)).all shallowVal
      = true := by
  rw [List.all_map]
  rw [List.all_eq_true] at hall ⊢
  intro o ho
  by_cases hro : isRefOf o old = true
  · simp [Function.comp, hro, shallowVal]
  · simp only [Bool.not_eq_true] at hro
    simp only [Function.comp, hro, Bool.false_eq_true, if_false]
    exact hall o ho

lemma assignAttrTupF_shallow_rt (old new : Nat) (es : List HVal)
    (hall : es.all shallowVal = true) (hfr : new ∉ elemsRefs es) :
    assignAttrTupF new old
        (es.map (fun o => if isRefOf o old then HVal.ref new else o))
      = (es, es.any (fun o => isRefOf o old)) := by
  rw [assignAttrTupF_shallow_char new old _ (mapped_shallow old new es hall)]
  have hfr2 : ∀ o ∈ es, isRefOf o new = false := fun o ho =>
    isRefOf_false_of_not_ref o new (fun hq => hfr (elemsRefs_subset es o ho new hq))
  rw [Prod.mk.injEq]
  constructor
  · rw [List.map_map]
    have hcongr : ∀ o ∈ es, ((fun o2 => if isRefOf o2 new then HVal.ref old else o2)
        ∘ (fun o => if isRefOf o old then HVal.ref new else o)) o = id o := by
      intro o ho
      by_cases hro : isRefOf o old = true
      · have ho2 : o = HVal.ref old := (isRefOf_iff o old).mp hro
        subst ho2
        simp [Function.comp, isRefOf]
      · simp only [Bool.not_eq_true] at hro
        simp [Function.comp, hro, hfr2 o ho]
    rw [List.map_congr_left hcongr, List.map_id]
  · rw [List.any_map]
    by_cases hany : es.any (fun o => isRefOf o old) = true
    · rw [hany]
      rw [List.any_eq_true] at hany ⊢
      rcases hany with ⟨o, ho, hro⟩
      refine ⟨o, ho, ?_⟩
      simp only [Function.comp, hro, if_true]
      simp [isRefOf]
    · simp only [Bool.not_eq_true] at hany
      rw [hany]
      rw [List.any_eq_false] at hany ⊢
      intro o ho
      have hro := hany o ho
      simp only [Bool.not_eq_true] at hro
      simp [Function.comp, hro, hfr2 o ho]

lemma assignAttrTupF_fresh (a b : Nat) (es : List HVal)
    (hall : es.all shallowVal = true)
    (hfr2 : ∀ o ∈ es, isRefOf o a = false) :
    assignAttrTupF a b es = (es, false) := by
  rw [assignAttrTupF_shallow_char a b es hall]
  rw [Prod.mk.injEq]
  constructor
  · have hcongr : ∀ o ∈ es, (if isRefOf o a then HVal.ref b else o) = id o := by
      intro o ho
      simp [hfr2 o ho]
    rw [List.map_congr_left hcongr, List.map_id]
  · rw [List.any_eq_false]
    intro o ho
    simp [hfr2 o ho]

mutual
lemma assignAttrF_rt : ∀ (old new : Nat) (v : HVal), old ≠ new → fieldOK v = true →
    new ∉ valRefs v →
    ((assignAttrF old new v).2 = none ∧
        assignAttrF new old (assignAttrF old new v).1 = (v, none))
    ∨ (∃ nv, assignAttrF old new v = (v, some nv) ∧
        assignAttrF new old nv = (nv, some v))
  | old, new, HVal.ref p => by
    intro hne hok hfresh
    by_cases hp : p = old
    · subst hp
      right
      refine ⟨HVal.ref new, ?_, ?_⟩
      · simp [assignAttrF]
      · simp [assignAttrF]
    · left
      have hpn : p ≠ new := by
        simp [valRefs] at hfresh
        omega
      constructor
      · simp [assignAttrF, hp]
      · simp [assignAttrF, hp, hpn]
  | old, new, HVal.atomV t => by
    intro hne hok hfresh
    left
    constructor
    · simp [assignAttrF]
    · simp [assignAttrF]
  | old, new, HVal.dictV es => by
    intro hne hok hfresh
    left
    constructor
    · simp [assignAttrF]
    · simp only [assignAttrF]
      rw [assignAttrDictF_rt old new es hne (by simpa [fieldOK] using hok)
        (by simpa [valRefs] using hfresh)]
  | old, new, HVal.listV es => by
    intro hne hok hfresh
    left
    constructor
    · simp [assignAttrF]
    · simp only [assignAttrF]
      rw [assignAttrListF_rt old new es hne (by simpa [fieldOK] using hok)
        (by simpa [valRefs] using hfresh)]
  | old, new, HVal.tupV es => by
    intro hne hok hfresh
    have hall : es.all shallowVal = true := by simpa [fieldOK] using hok
    have hfr : new ∉ elemsRefs es := by simpa [valRefs] using hfresh
    have hfr2 : ∀ o ∈ es, isRefOf o new = false := fun o ho =>
      isRefOf_false_of_not_ref o new (fun hq => hfr (elemsRefs_subset es o ho new hq))
    by_cases hany : es.any (fun o => isRefOf o old) = true
    · right
      refine ⟨HVal.tupV (es.map (fun o => if isRefOf o old then HVal.ref new else o)),
        ?_, ?_⟩
      · simp only [assignAttrF]
        rw [assignAttrTupF_shallow_char old new es hall]
        simp [hany]
      · simp only [assignAttrF]
        rw [assignAttrTupF_shallow_rt old new es hall hfr]
        simp [hany]
    · simp only [Bool.not_eq_true] at hany
      left
      have hfwd1 : assignAttrF old new (HVal.tupV es) = (HVal.tupV es, none) := by
        simp only [assignAttrF]
        rw [assignAttrTupF_shallow_char old new es hall]
        simp [hany]
      rw [hfwd1]
      refine ⟨rfl, ?_⟩
      simp only [assignAttrF]
      rw [assignAttrTupF_fresh new old es hall hfr2]
      simp
  | old, new, HVal.setV es => by
    intro hne hok hfresh
    simp [fieldOK] at hok

lemma assignAttrDictF_rt : ∀ (old new : Nat) (es : List (String × HVal)), old ≠ new →
    dictOK es = true → new ∉ dictRefs es →
    assignAttrDictF new old (assignAttrDictF old new es) = es
  | old, new, [] => by
    intro _ _ _
    rfl
  | old, new, (k, v) :: rest => by
    intro hne hall hfr
    simp only [dictOK, Bool.and_eq_true] at hall
    have hfrv : new ∉ valRefs v := fun hq => hfr (by
      simp only [dictRefs, List.mem_append]
      exact Or.inl hq)
    have hfrr : new ∉ dictRefs rest := fun hq => hfr (by
      simp only [dictRefs, List.mem_append]
      exact Or.inr hq)
    rcases assignAttrF_rt old new v hne hall.1 hfrv with
      ⟨hnone, hback⟩ | ⟨nv, hfwd, hback⟩
    · have hfwd1 : assignAttrDictF old new ((k, v) :: rest)
          = (k, (assignAttrF old new v).1) :: assignAttrDictF old new rest := by
        simp [assignAttrDictF, hnone]
      rw [hfwd1]
      have hbwd : assignAttrDictF new old
            ((k, (assignAttrF old new v).1) :: assignAttrDictF old new rest)
          = (k, v) :: assignAttrDictF new old (assignAttrDictF old new rest) := by
        simp [assignAttrDictF, hback]
      rw [hbwd, assignAttrDictF_rt old new rest hne hall.2 hfrr]
    · have hfwd1 : assignAttrDictF old new ((k, v) :: rest) = (k, nv) :: rest := by
        simp [assignAttrDictF, hfwd]
      rw [hfwd1]
      have hbwd : assignAttrDictF new old ((k, nv) :: rest) = (k, v) :: rest := by
        simp [assignAttrDictF, hback]
      rw [hbwd]

lemma assignAttrListF_rt : ∀ (old new : Nat) (es : List HVal), old ≠ new →
    listOK es = true → new ∉ elemsRefs es →
    assignAttrListF new old (assignAttrListF old new es) = es
  | old, new, [] => by
    intro _ _ _
    rfl
  | old, new, o :: os => by
    intro hne hall hfr
    simp only [listOK, Bool.and_eq_true] at hall
    have hfro : new ∉ valRefs o := fun hq => hfr (by
      simp only [elemsRefs, List.mem_append]
      exact Or.inl hq)
    have hfros : new ∉ elemsRefs os := fun hq => hfr (by
      simp only [elemsRefs, List.mem_append]
      exact Or.inr hq)
    rcases assignAttrF_rt old new o hne hall.1 hfro with
      ⟨hnone, hback⟩ | ⟨nv, hfwd, hback⟩
    · have hfwd1 : assignAttrListF old new (o :: os)
          = (assignAttrF old new o).1 :: assignAttrListF old new os := by
        simp [assignAttrListF, hnone]
      rw [hfwd1]
      have hbwd : assignAttrListF new old
            ((assignAttrF old new o).1 :: assignAttrListF old new os)
          = o :: assignAttrListF new old (assignAttrListF old new os) := by
        simp [assignAttrListF, hback]
      rw [hbwd, assignAttrListF_rt old new os hne hall.2 hfros]
    · have hfwd1 : assignAttrListF old new (o :: os) = nv :: os := by
        simp [assignAttrListF, hfwd]
      rw [hfwd1]
      have hbwd : assignAttrListF new old (nv :: os) = o :: os := by
        simp [assignAttrListF, hback]
      rw [hbwd]
end

mutual
lemma assignAttrF_no_ref : ∀ (old new : Nat) (v : HVal), old ∉ valRefs v →
    assignAttrF old new v = (v, none)
  | old, new, HVal.ref p => by
    intro h
    simp only [valRefs, List.mem_singleton] at h
    have hp : ¬ p = old := fun hh => h hh.symm
    simp [assignAttrF, hp]
  | old, new, HVal.atomV t => by
    intro _
    simp [assignAttrF]
  | old, new, HVal.dictV es => by
    intro h
    simp only [valRefs] at h
    simp [assignAttrF, assignAttrDictF_no_ref old new es h]
  | old, new, HVal.tupV es => by
    intro h
    simp only [valRefs] at h
    simp [assignAttrF, assignAttrTupF_no_ref old new es h]
  | old, new, HVal.listV es => by
    intro h
    simp only [valRefs] at h
    simp [assignAttrF, assignAttrListF_no_ref old new es h]
  | old, new, HVal.setV es => by
    intro h
    simp only [valRefs] at h
    simp [assignAttrF, assignAttrSetF_no_ref old new es h]

lemma assignAttrDictF_no_ref : ∀ (old new : Nat) (es : List (String × HVal)),
    old ∉ dictRefs es → assignAttrDictF old new es = es
  | _, _, [] => by
    intro _
    rfl
  | old, new, (k, v) :: rest => by
    intro h
    simp only [dictRefs, List.mem_append] at h
    push_neg at h
    simp [assignAttrDictF, assignAttrF_no_ref old new v h.1,
      assignAttrDictF_no_ref old new rest h.2]

lemma assignAttrTupF_no_ref : ∀ (old new : Nat) (es : List HVal),
    old ∉ elemsRefs es → assignAttrTupF old new es = (es, false)
  | _, _, [] => by
    intro _
    rfl
  | old, new, v :: rest => by
    intro h
    simp only [elemsRefs, List.mem_append] at h
    push_neg at h
    simp [assignAttrTupF, assignAttrF_no_ref old new v h.1,
      assignAttrTupF_no_ref old new rest h.2]

lemma assignAttrListF_no_ref : ∀ (old new : Nat) (es : List HVal),
    old ∉ elemsRefs es → assignAttrListF old new es = es
  | _, _, [] => by
    intro _
    rfl
  | old, new, v :: rest => by
    intro h
    simp only [elemsRefs, List.mem_append] at h
    push_neg at h
    simp [assignAttrListF, assignAttrF_no_ref old new v h.1,
      assignAttrListF_no_ref old new rest h.2]

lemma assignAttrSetF_no_ref : ∀ (old new : Nat) (es : List HVal),
    old ∉ elemsRefs es → assignAttrSetF old new es = (es, false)
  | _, _, [] => by
    intro _
    rfl
  | old, new, v :: rest => by
    intro h
    simp only [elemsRefs, List.mem_append] at h
    push_neg at h
    simp [assignAttrSetF, assignAttrF_no_ref old new v h.1,
      assignAttrSetF_no_ref old new rest h.2]
end

lemma assignAttrT_rt (old new : Nat) (hne : old ≠ new) (n : PNode)
    (hok : dictOK n.fields = true)
    (hfr : new ∉ nodeRefs n) :
    assignAttrT new old (assignAttrT old new n) = n := by
  cases n with
  | mk fs =>
    show PNode.mk (assignAttrDictF new old (assignAttrDictF old new fs)) = PNode.mk fs
    rw [assignAttrDictF_rt old new fs hne hok hfr]

/-- A receiver without any reference to `old` is untouched by the rewrite:
applying `_assign_attr(recv, old, new, inner_dp=True)` to it is a no-op. -/
lemma assignAttrT_no_ref (old new : Nat) (n : PNode) (h : old ∉ nodeRefs n) :
    assignAttrT old new n = n := by
  cases n with
  | mk fs =>
    show PNode.mk (assignAttrDictF old new fs) = PNode.mk fs
    rw [assignAttrDictF_no_ref old new fs h]

end ReplaceLemmas

section ClaimTheorems

/-- C1 counterexample: called on a tuple holding two reference-identical
occurrences of the old pipe, `_assign_attr` substitutes both of them (not at
most one), and rebuilds the tuple although two elements changed, not exactly
one. -/
theorem claim_C1_cex :
    assignAttrF 0 1 (HVal.tupV [HVal.ref 0, HVal.ref 0])
      = (HVal.tupV [HVal.ref 0, HVal.ref 0],
          some (HVal.tupV [HVal.ref 1, HVal.ref 1]))
    ∧ (assignAttrF 0 1 (HVal.tupV [HVal.ref 0, HVal.ref 0])).2
        ≠ some (HVal.tupV [HVal.ref 1, HVal.ref 0])
    ∧ (assignAttrF 0 1 (HVal.tupV [HVal.ref 0, HVal.ref 0])).2 ≠ none := by
  refine ⟨rfl, ?_, ?_⟩
  · intro h
    have h2 : some (HVal.tupV [HVal.ref 1, HVal.ref 1])
        = some (HVal.tupV [HVal.ref 1, HVal.ref 0]) := h
    simp at h2
  · intro h
    have h2 : some (HVal.tupV [HVal.ref 1, HVal.ref 1]) = (none : Option HVal) := h
    exact Option.noConfusion h2

/-- C1 (amended): in `_assign_attr`, the mutable-container and object-field
scans substitute at most once — the first element whose recursive call
signals a replacement wins and later elements are untouched — but in the
immutable-tuple branch every element whose recursive call signals is
substituted by `new`, and the tuple is rebuilt whenever at least one element
changed (not only when exactly one did); in particular a tuple holding two
reference-identical occurrences of `old` has both occurrences substituted in
one call. -/
theorem claim_C1_thm (old new : Nat) :
    (∀ elems : List HVal,
      assignAttrF old new (HVal.tupV elems)
      = (HVal.tupV elems,
          if elems.any (fun o => (assignAttrF old new o).2.isSome)
          then some (HVal.tupV (elems.map (fun o =>
              if (assignAttrF old new o).2.isSome then HVal.ref new
              else (assignAttrF old new o).1)))
          else none))
    ∧ (∀ (pre : List HVal) (o : HVal) (suf : List HVal) (nv : HVal),
        (∀ p ∈ pre, (assignAttrF old new p).2 = none) →
        (assignAttrF old new o).2 = some nv →
        assignAttrF old new (HVal.listV (pre ++ o :: suf))
        = (HVal.listV (pre.map (fun p => (assignAttrF old new p).1) ++ nv :: suf),
            none))
    ∧ (∀ (pre : List (String × HVal)) (k : String) (v : HVal)
        (suf : List (String × HVal)) (nv : HVal),
        (∀ p ∈ pre, (assignAttrF old new p.2).2 = none) →
        (assignAttrF old new v).2 = some nv →
        assignAttrF old new (HVal.dictV (pre ++ (k, v) :: suf))
        = (HVal.dictV (pre.map (fun p => (p.1, (assignAttrF old new p.2).1))
            ++ (k, nv) :: suf), none))
    ∧ assignAttrF old new (HVal.tupV [HVal.ref old, HVal.ref old])
      = (HVal.tupV [HVal.ref old, HVal.ref old],
          some (HVal.tupV [HVal.ref new, HVal.ref new])) := by
  refine ⟨?_, ?_, ?_, ?_⟩
  · intro elems
    conv_lhs => rw [assignAttrF, assignAttrTupF_spec old new elems]
    by_cases hany : elems.any (fun o => (assignAttrF old new o).2.isSome) <;>
      simp [hany]
  · intro pre o suf nv hpre ho
    conv_lhs => rw [assignAttrF]
    rw [assignAttrListF_spec old new pre o suf nv hpre ho]
  · intro pre k v suf nv hpre ho
    conv_lhs => rw [assignAttrF]
    rw [assignAttrDictF_spec old new pre k v suf nv hpre ho]
  · simp [assignAttrF, assignAttrTupF]

theorem claim_C1_thm_witness :
    (assignAttrF 0 1 (HVal.atomV 7)).2 = none
    ∧ (assignAttrF 0 1 (HVal.ref 0)).2 = some (HVal.ref 1)
    ∧ assignAttrF 0 1 (HVal.listV ([HVal.atomV 7] ++ HVal.ref 0 :: [HVal.atomV 8]))
      = (HVal.listV ([HVal.atomV 7].map (fun p => (assignAttrF 0 1 p).1)
          ++ HVal.ref 1 :: [HVal.atomV 8]), none) :=
  ⟨rfl, rfl,
    (claim_C1_thm 0 1).2.1 [HVal.atomV 7] (HVal.ref 0) [HVal.atomV 8] (HVal.ref 1)
      (by
        intro p hp
        rw [List.mem_singleton] at hp
        subst hp
        rfl)
      rfl⟩


/-- C2 (amended): with a finite configured `buffer_size` of `n` the joiner's
buffer never holds more than `n + 1` entries (the eviction check `len > n`
runs before the insertion, so the buffer settles one entry above the
configured bound, not at it); when the buffer length exceeds the bound the
entry evicted is the oldest-inserted one (the head of the insertion-ordered
buffer, with the new entry appended at the tail) with at most one warning per
iteration pass, and a primary key whose matching secondary entry was evicted
fails with a no-match error, as the bufSize-1 run over primary [2,0],
secondary [0,1,2] shows. -/
theorem claim_C2_thm {α β γ κ : Type} [DecidableEq κ] (keyFn : α → κ)
    (refKeyFn : β → κ) (merge : α → β → γ) (kk : Bool) (n : Nat) :
    (∀ (source : List α) (ref : List β),
      (iterKeyZipRun keyFn refKeyFn merge kk (some n) source ref).peak ≤ n + 1
      ∧ (iterKeyZipRun keyFn refKeyFn merge kk (some n) source ref).buffer.length ≤ n + 1
      ∧ (iterKeyZipRun keyFn refKeyFn merge kk (some n) source ref).warns ≤ 1)
    ∧ (∀ (key : κ) (r : β) (rest : List β) (buf : List (κ × β)) (wf : Bool) (w : Nat)
        (ev : List (κ × β)) (dr : List β) (pk : Nat),
        key ∉ buf.map Prod.fst → refKeyFn r ∉ buf.map Prod.fst →
        evictCond (some n) buf.length = true →
        zipFill refKeyFn (some n) key (r :: rest) buf wf w ev dr pk
        = zipFill refKeyFn (some n) key rest (buf.drop 1 ++ [(refKeyFn r, r)]) false
            (if wf then w + 1 else w) (ev ++ buf.take 1) dr
            (max pk (buf.drop 1 ++ [(refKeyFn r, r)]).length))
    ∧ (iterKeyZipRun (fun x : Nat => x) (fun x => x) (fun a b : Nat => a + b) false
        (some 1) [2, 0] [0, 1, 2]).evicted = [(0, 0)]
    ∧ (iterKeyZipRun (fun x : Nat => x) (fun x => x) (fun a b : Nat => a + b) false
        (some 1) [2, 0] [0, 1, 2]).warns = 1
    ∧ (iterKeyZipRun (fun x : Nat => x) (fun x => x) (fun a b : Nat => a + b) false
        (some 1) [2, 0] [0, 1, 2]).error = some ZipError.bufferError := by
  refine ⟨?_, ?_, by decide, by decide, by decide⟩
  · intro source ref
    have hb := zipLoop_bound keyFn refKeyFn merge kk n source ref [] true 0 [] [] 0 [] []
      (by simp) (by simp)
    have hw := zipLoop_warns keyFn refKeyFn merge kk (some n) source ref [] true 0 [] []
      0 [] []
    refine ⟨hb.2, hb.1, ?_⟩
    show (zipLoop keyFn refKeyFn merge kk (some n) source ref [] true 0 [] [] 0 []
      []).warns ≤ 1
    cases hfl : (zipLoop keyFn refKeyFn merge kk (some n) source ref [] true 0 [] [] 0 []
        []).warnFlag <;> rw [hfl] at hw <;> simp at hw <;> omega
  · intro key r rest buf wf w ev dr pk hm hd hev
    rw [zipFill_cons refKeyFn (some n) key r rest buf wf w ev dr pk hm hd]
    rw [hev]
    cases wf <;> simp

/-- C2 counterexample: the claim as stated says the buffer never holds more
than `buffer_size` entries, but with `buffer_size = 1`, primary [2,0] and
secondary [0,1,2] the buffer reaches 2 entries. -/
theorem claim_C2_cex :
    (iterKeyZipRun (fun x : Nat => x) (fun x => x) (fun a b : Nat => a + b) false
      (some 1) [2, 0] [0, 1, 2]).peak = 2
    ∧ ¬ ((iterKeyZipRun (fun x : Nat => x) (fun x => x) (fun a b : Nat => a + b) false
      (some 1) [2, 0] [0, 1, 2]).peak ≤ 1) := by decide

theorem claim_C2_thm_witness :
    (iterKeyZipRun (fun x : Nat => x) (fun x => x) (fun a b : Nat => a + b) false
      (some 1) [2, 0] [0, 1, 2]).peak ≤ 2
    ∧ zipFill (fun x : Nat => x) (some 1) 5 [7] [(0, 0), (1, 1)] true 0 [] [] 2
      = zipFill (fun x : Nat => x) (some 1) 5 []
          ([(0, 0), (1, 1)].drop 1 ++ [(7, 7)]) false (if true then 0 + 1 else 0)
          ([] ++ [(0, 0), (1, 1)].take 1) []
          (max 2 ([(0, 0), (1, 1)].drop 1 ++ [(7, 7)]).length) :=
  ⟨((claim_C2_thm (fun x : Nat => x) (fun x => x) (fun a b : Nat => a + b) false 1).1
      [2, 0] [0, 1, 2]).1,
    (claim_C2_thm (fun x : Nat => x) (fun x => x) (fun a b : Nat => a + b) false 1).2.1
      5 7 [] [(0, 0), (1, 1)] true 0 [] [] 2 (by decide) (by decide) (by decide)⟩

/-- C3: during keyed-join iteration, exhaustion of the secondary stream
before a match (no silent drop) and a duplicate buffered secondary key both
fail with an error; a fill-loop failure aborts the pass with that error; and
on every loop exit — normal exhaustion, early break (modelled by truncating
the primary stream), or error — the cleanup hook releases exactly the
residual buffered items, the buffer is cleared, and matched, evicted,
dropped and residual items together with the unconsumed suffix partition the
reference stream. -/
theorem claim_C3_thm {α β γ κ : Type} [DecidableEq κ] (keyFn : α → κ)
    (refKeyFn : β → κ) (merge : α → β → γ) (kk : Bool) (bs : Option Nat) :
    (∀ (key : κ) (ref : List β) (buf : List (κ × β)) (wf : Bool) (w : Nat)
        (ev : List (κ × β)) (dr : List β) (pk : Nat),
        key ∉ buf.map Prod.fst → (∀ b ∈ ref, refKeyFn b ≠ key) →
        ((zipFill refKeyFn bs key ref buf wf w ev dr pk).error).isSome)
    ∧ (∀ (key : κ) (r : β) (rest : List β) (buf : List (κ × β)) (wf : Bool) (w : Nat)
        (ev : List (κ × β)) (dr : List β) (pk : Nat),
        key ∉ buf.map Prod.fst → refKeyFn r ∈ buf.map Prod.fst →
        (zipFill refKeyFn bs key (r :: rest) buf wf w ev dr pk).error
          = some ZipError.dupKeyError)
    ∧ (∀ (a : α) (as : List α) (ref : List β) (buf : List (κ × β)) (wf : Bool) (w : Nat)
        (ev : List (κ × β)) (dr : List β) (pk : Nat) (outs : List (ZipOut κ γ))
        (matched : List β) (e : ZipError),
        (zipFill refKeyFn bs (keyFn a) ref buf wf w ev dr pk).error = some e →
        (zipLoop keyFn refKeyFn merge kk bs (a :: as) ref buf wf w ev dr pk outs
          matched).error = some e)
    ∧ (∀ (source : List α) (ref : List β),
        bufferRelease (iterKeyZipRun keyFn refKeyFn merge kk bs source ref).buffer
          = ((iterKeyZipRun keyFn refKeyFn merge kk bs source ref).buffer.map Prod.snd,
              ([] : List (κ × β)))
        ∧ ((iterKeyZipRun keyFn refKeyFn merge kk bs source ref).matched : Multiset β)
          + ((iterKeyZipRun keyFn refKeyFn merge kk bs source ref).evicted.map
              Prod.snd : Multiset β)
          + ((iterKeyZipRun keyFn refKeyFn merge kk bs source ref).dropped : Multiset β)
          + ((iterKeyZipRun keyFn refKeyFn merge kk bs source ref).buffer.map
              Prod.snd : Multiset β)
          + ((iterKeyZipRun keyFn refKeyFn merge kk bs source ref).refRest : Multiset β)
        = (ref : Multiset β)) := by
  refine ⟨zipFill_exhaust refKeyFn bs, ?_, ?_, ?_⟩
  · intro key r rest buf wf w ev dr pk hm hd
    conv_lhs => rw [zipFill]
    simp [if_neg hm, if_pos hd]
  · intro a as ref buf wf w ev dr pk outs matched e hf
    rw [zipLoop_err keyFn refKeyFn merge kk bs a as ref buf wf w ev dr pk outs matched
      e hf]
  · intro source ref
    refine ⟨rfl, ?_⟩
    have hm := zipLoop_mass keyFn refKeyFn merge kk bs source ref [] true 0 [] [] 0 [] []
    simpa using hm

theorem claim_C3_thm_witness :
    (5 : Nat) ∉ ([] : List (Nat × Nat)).map Prod.fst
    ∧ ((zipFill (fun x : Nat => x) (some 10000) 5 [] [] true 0 [] [] 0).error).isSome
    ∧ (zipFill (fun x : Nat => x) (some 10000) 5 [0] [(0, 0)] true 0 [] [] 1).error
      = some ZipError.dupKeyError
    ∧ ((iterKeyZipRun (fun x : Nat => x) (fun x => x) (fun a b : Nat => a + b) false
        (some 10000) [2, 0] [0, 1, 2]).matched : Multiset Nat)
      + ((iterKeyZipRun (fun x : Nat => x) (fun x => x) (fun a b : Nat => a + b) false
          (some 10000) [2, 0] [0, 1, 2]).evicted.map Prod.snd : Multiset Nat)
      + ((iterKeyZipRun (fun x : Nat => x) (fun x => x) (fun a b : Nat => a + b) false
          (some 10000) [2, 0] [0, 1, 2]).dropped : Multiset Nat)
      + ((iterKeyZipRun (fun x : Nat => x) (fun x => x) (fun a b : Nat => a + b) false
          (some 10000) [2, 0] [0, 1, 2]).buffer.map Prod.snd : Multiset Nat)
      + ((iterKeyZipRun (fun x : Nat => x) (fun x => x) (fun a b : Nat => a + b) false
          (some 10000) [2, 0] [0, 1, 2]).refRest : Multiset Nat)
      = (([0, 1, 2] : List Nat) : Multiset Nat) :=
  ⟨by decide,
    (claim_C3_thm (fun x : Nat => x) (fun x => x) (fun a b : Nat => a + b) false
      (some 10000)).1 5 [] [] true 0 [] [] 0 (by decide) (by decide),
    (claim_C3_thm (fun x : Nat => x) (fun x => x) (fun a b : Nat => a + b) false
      (some 10000)).2.1 5 0 [] [(0, 0)] true 0 [] [] 1 (by decide) (by decide),
    ((claim_C3_thm (fun x : Nat => x) (fun x => x) (fun a b : Nat => a + b) false
      (some 10000)).2.2.2 [2, 0] [0, 1, 2]).2⟩

/-- C4: on a well-formed graph, `find_dps` returns every reachable pipe of
the requested exact runtime type exactly once — regardless of how many paths
reach it — and returns only pipes whose exact runtime type equals the
requested one, excluding strict subtypes. -/
theorem claim_C4_thm (G : Graph) (ty : Nat) (Q : DP) (hwf : G.wf)
    (hQ : ∃ e ∈ G.allEntries, GEntry.dp e = Q)
    (hty : DP.exactTy Q = some ty) :
    (find_dps G ty).filter (fun p => decide (DP.pid p = DP.pid Q)) = [Q]
    ∧ Q ∈ find_dps G ty
    ∧ (∀ p ∈ find_dps G ty, DP.exactTy p = some ty)
    ∧ (∀ q : DP, DP.exactTy q ≠ some ty → q ∉ find_dps G ty) := by
  obtain ⟨eQ, heQ, hdQ⟩ := hQ
  obtain ⟨δd, δc, h1, h2, h3, h4, h5, h6, h7, h8, h9, h10⟩ :=
    findHelper_spec ty G hwf G [] [] [] (fun e he => he) (by intro e he h; cases h)
  have hcov : ∀ e ∈ G.allEntries, GEntry.pid e ∈ [] ++ δc :=
    closed_deep G ([] ++ δc) h10 G (fun e he => he) (fun e he => h9 e he)
  have hQpid : GEntry.pid eQ ∈ δc := by simpa using hcov eQ heQ
  have hQin : Q ∈ δd := by
    have := h8 eQ heQ hQpid (by rw [hdQ]; exact hty)
    rwa [hdQ] at this
  have hfind : find_dps G ty = δd := by
    unfold find_dps
    rw [h1]
    simp
  have huniq : ∀ p ∈ δd, DP.pid p = DP.pid Q → p = Q := by
    intro p hp hpe
    rcases (h6 p hp).2.2 with ⟨ep, hep, hdpp⟩
    have hp1 : GEntry.pid ep = DP.pid p := by
      have := hwf.1 ep hep
      rw [this, hdpp]
    have hp2 : GEntry.pid eQ = DP.pid Q := by
      have := hwf.1 eQ heQ
      rw [this, hdQ]
    have heqpid : GEntry.pid ep = GEntry.pid eQ := by rw [hp1, hp2, hpe]
    have := (hwf.2 ep eQ hep heQ heqpid).1
    rw [← hdpp, this, hdQ]
  refine ⟨?_, by rw [hfind]; exact hQin, ?_, ?_⟩
  · rw [hfind]
    exact filter_pid_eq_singleton Q δd h7 hQin huniq
  · intro p hp
    rw [hfind] at hp
    exact (h6 p hp).1
  · intro q hq hqin
    rw [hfind] at hqin
    exact hq (h6 q hqin).1

theorem claim_C4_thm_witness :
    (traverse_dps (DP.mk 1 [12] [DP.mk 2 [10] [DP.mk 4 [20] []],
        DP.mk 3 [11] [DP.mk 4 [20] []]])).wf
    ∧ (find_dps (traverse_dps (DP.mk 1 [12] [DP.mk 2 [10] [DP.mk 4 [20] []],
        DP.mk 3 [11] [DP.mk 4 [20] []]])) 20).filter
        (fun p => decide (DP.pid p = DP.pid (DP.mk 4 [20] [])))
      = [DP.mk 4 [20] []] := by
  have hwf : (traverse_dps (DP.mk 1 [12] [DP.mk 2 [10] [DP.mk 4 [20] []],
      DP.mk 3 [11] [DP.mk 4 [20] []]])).wf := by
    constructor
    · intro e he
      simp only [traverse_dps, subgraphOf, subgraphList, Graph.allEntries,
        allEntriesList, DP.pid, List.mem_cons, List.mem_append,
        List.not_mem_nil, or_false, List.mem_singleton] at he
      rcases he with rfl | rfl | rfl | rfl | rfl <;> rfl
    · intro e e' he he'
      simp only [traverse_dps, subgraphOf, subgraphList, Graph.allEntries,
        allEntriesList, DP.pid, List.mem_cons, List.mem_append,
        List.not_mem_nil, or_false, List.mem_singleton] at he he'
      rcases he with rfl | rfl | rfl | rfl | rfl <;>
        rcases he' with rfl | rfl | rfl | rfl | rfl <;>
          intro hpe <;> first
            | exact ⟨rfl, rfl⟩
            | (exfalso; simp [GEntry.pid] at hpe)
  refine ⟨hwf, ?_⟩
  exact (claim_C4_thm _ 20 (DP.mk 4 [20] []) hwf
    ⟨GEntry.mk 4 (DP.mk 4 [20] []) (subgraphOf (DP.mk 4 [20] [])), by
      simp [traverse_dps, subgraphOf, subgraphList, Graph.allEntries,
        allEntriesList, DP.pid], rfl⟩ rfl).1

/-- C5: on a graph whose combination with the excluded pipes' own traversals
is well-formed, `list_dps` (the spec's listAll) lists pipes without
duplicates (pairwise distinct ids), omits every pipe occurring anywhere in an
excluded pipe's full traversal — the excluded pipes themselves and everything
upstream of them — returns only pipes of the graph, and returns every graph
entry the exclusion pre-marking did not visit. -/
theorem claim_C5_thm (G : Graph) (excl : List DP)
    (hwf : (Graph.mk (G.entries
      ++ excl.map (fun ex => GEntry.mk (DP.pid ex) ex (subgraphOf ex)))).wf) :
    ((list_dps G excl).map DP.pid).Nodup
    ∧ (∀ p ∈ list_dps G excl, ∀ ex ∈ excl,
        ∀ e ∈ (traverse_dps ex).allEntries, GEntry.pid e ≠ DP.pid p)
    ∧ (∀ p ∈ list_dps G excl, ∃ e ∈ G.allEntries, GEntry.dp e = p)
    ∧ (∀ e ∈ G.allEntries, GEntry.pid e ∉ excludeCache excl [] →
        GEntry.dp e ∈ list_dps G excl) := by
  have hGsub : ∀ e ∈ G.allEntries,
      e ∈ (Graph.mk (G.entries
        ++ excl.map (fun ex => GEntry.mk (DP.pid ex) ex (subgraphOf ex)))).allEntries := by
    intro e he
    rw [Graph.allEntries_eq, Graph.entries, allEntriesList_append]
    rw [Graph.allEntries_eq] at he
    exact List.mem_append_left _ he
  have hwfG : G.wf := wf_of_subset hwf hGsub
  have hcont : ∀ ex ∈ excl, GEntry.mk (DP.pid ex) ex (subgraphOf ex)
      ∈ (Graph.mk (G.entries
        ++ excl.map (fun ex => GEntry.mk (DP.pid ex) ex (subgraphOf ex)))).allEntries := by
    intro ex hex
    apply top_mem_allEntries
    rw [Graph.entries]
    exact List.mem_append_right _ (List.mem_map_of_mem _ hex)
  obtain ⟨ec1, ec2, ec3⟩ :=
    excludeCache_spec (Graph.mk (G.entries
        ++ excl.map (fun ex => GEntry.mk (DP.pid ex) ex (subgraphOf ex)))) hwf
      excl [] hcont (by intro e _ h; cases h)
  have hc0 : ∀ e ∈ G.allEntries, GEntry.pid e ∈ excludeCache excl [] →
      ∀ i ∈ childIds e, i ∈ excludeCache excl [] := by
    intro e he hpe i hi
    rcases List.mem_map.mp hi with ⟨c, hc, hpc⟩
    rw [← hpc]
    exact ec2 e (hGsub e he) hpe c (top_mem_allEntries _ c hc)
  obtain ⟨t1, t2, t3, t4⟩ := list_dps_core_spec G hwfG (excludeCache excl []) hc0
  have hld : list_dps G excl = list_dps_core G (excludeCache excl []) := rfl
  rw [hld]
  refine ⟨t1, ?_, t3, t4⟩
  intro p hp ex hex e he heq
  exact t2 p hp (heq ▸ ec3 ex hex e he)

theorem claim_C5_thm_witness :
    (Graph.mk ((traverse_dps (DP.mk 1 [12] [DP.mk 2 [10] [DP.mk 3 [11] []]])).entries
      ++ [DP.mk 2 [10] [DP.mk 3 [11] []]].map
        (fun ex => GEntry.mk (DP.pid ex) ex (subgraphOf ex)))).wf
    ∧ ((list_dps (traverse_dps (DP.mk 1 [12] [DP.mk 2 [10] [DP.mk 3 [11] []]]))
        [DP.mk 2 [10] [DP.mk 3 [11] []]]).map DP.pid).Nodup := by
  have hwf : (Graph.mk ((traverse_dps
        (DP.mk 1 [12] [DP.mk 2 [10] [DP.mk 3 [11] []]])).entries
      ++ [DP.mk 2 [10] [DP.mk 3 [11] []]].map
        (fun ex => GEntry.mk (DP.pid ex) ex (subgraphOf ex)))).wf := by
    constructor
    · intro e he
      simp only [traverse_dps, subgraphOf, subgraphList, Graph.allEntries,
        Graph.entries, allEntriesList, DP.pid, List.map_cons, List.map_nil,
        List.cons_append, List.nil_append, List.mem_cons, List.mem_append,
        List.not_mem_nil, or_false, List.mem_singleton] at he
      rcases he with rfl | rfl | rfl | rfl | rfl <;> rfl
    · intro e e2 he he2
      simp only [traverse_dps, subgraphOf, subgraphList, Graph.allEntries,
        Graph.entries, allEntriesList, DP.pid, List.map_cons, List.map_nil,
        List.cons_append, List.nil_append, List.mem_cons, List.mem_append,
        List.not_mem_nil, or_false, List.mem_singleton] at he he2
      rcases he with rfl | rfl | rfl | rfl | rfl <;>
        rcases he2 with rfl | rfl | rfl | rfl | rfl <;>
          intro hpe <;> first
            | exact ⟨rfl, rfl⟩
            | (exfalso; simp [GEntry.pid] at hpe)
  exact ⟨hwf, (claim_C5_thm _ _ hwf).1⟩

/-- C6 counterexample: a receiver holding `old` (identity 10) inside a tuple
nested in another tuple, next to a sibling pipe 30.  The rewriter's tuple
special case substitutes the bare `new` pipe (identity 20) for the whole
signalling inner tuple, so the forward replacement drops the edge to 30, and
the round trip ends with predecessors {10} instead of {10, 30}: the
round-tripped graph is not isomorphic to the original. -/
theorem claim_C6_cex :
    nodeRefs (PNode.mk [("srcs",
        HVal.tupV [HVal.tupV [HVal.ref 10, HVal.ref 30]])]) = [10, 30]
    ∧ nodeRefs (assignAttrT 10 20 (PNode.mk [("srcs",
        HVal.tupV [HVal.tupV [HVal.ref 10, HVal.ref 30]])])) = [20]
    ∧ nodeRefs (assignAttrT 20 10 (assignAttrT 10 20 (PNode.mk [("srcs",
        HVal.tupV [HVal.tupV [HVal.ref 10, HVal.ref 30]])]))) = [10] := by
  exact ⟨by decide, by decide, by decide⟩

/-- C6 (amended): the replace round trip is the identity on the heap — and
hence reproduces the traversed graph exactly — whenever the substituted pipe
`new` is globally fresh and every receiver stores its references directly in
object fields, inside dicts and lists nested to any depth, or in tuples of
direct references (a tuple nested inside a list or dict included: those
branches assign the rebuilt tuple back); the round trip breaks precisely
when a signalling tuple sits directly inside another tuple, where line 190
substitutes the bare `new` pipe for the rebuilt inner tuple and drops its
sibling edges (see the counterexample). -/
theorem claim_C6_thm (old new : Nat) (h : Heap) (hne : old ≠ new)
    (hok : ∀ e ∈ h, dictOK e.2.fields = true)
    (hfresh : ∀ e ∈ h, new ∉ nodeRefs e.2) :
    replacePass new old (replacePass old new h) = h := by
  have hcomp : replacePass new old (replacePass old new h)
      = h.map ((fun e => (e.1, assignAttrT new old e.2))
          ∘ (fun e => (e.1, assignAttrT old new e.2))) := by
    simp [replacePass, List.map_map]
  rw [hcomp]
  have hpt : ∀ e ∈ h, ((fun e => (e.1, assignAttrT new old e.2))
      ∘ (fun e => (e.1, assignAttrT old new e.2))) e = id e := by
    intro e he
    simp only [Function.comp, id]
    rw [assignAttrT_rt old new hne e.2 (hok e he) (hfresh e he)]
  rw [List.map_congr_left hpt, List.map_id]

theorem claim_C6_thm_witness :
    (10 : Nat) ≠ 20
    ∧ replacePass 20 10 (replacePass 10 20
        [(1, PNode.mk [("src", HVal.ref 10), ("cfg", HVal.atomV 5),
            ("srcs", HVal.listV [HVal.tupV [HVal.ref 10, HVal.ref 30]]),
            ("meta", HVal.dictV [("a", HVal.listV [HVal.listV [HVal.ref 30]])])]),
         (10, PNode.mk []), (30, PNode.mk [])])
      = [(1, PNode.mk [("src", HVal.ref 10), ("cfg", HVal.atomV 5),
            ("srcs", HVal.listV [HVal.tupV [HVal.ref 10, HVal.ref 30]]),
            ("meta", HVal.dictV [("a", HVal.listV [HVal.listV [HVal.ref 30]])])]),
         (10, PNode.mk []), (30, PNode.mk [])] :=
  ⟨by decide,
    claim_C6_thm 10 20
      [(1, PNode.mk [("src", HVal.ref 10), ("cfg", HVal.atomV 5),
          ("srcs", HVal.listV [HVal.tupV [HVal.ref 10, HVal.ref 30]]),
          ("meta", HVal.dictV [("a", HVal.listV [HVal.listV [HVal.ref 30]])])]),
       (10, PNode.mk []), (30, PNode.mk [])]
      (by decide) (by decide) (by decide)⟩

/-- C7: the keyed stream joiner yields results in primary-stream order: on an
error-free pass the outputs are exactly the primary items in order, each
merged with the reference item it matched; for primary
[(a,100),(b,200),(c,300)], secondary [(a,1),(b,2),(c,3),(d,4)], key = first
component and merge = sum of second components, the output is
[101, 202, 303]. -/
theorem claim_C7_thm {α β γ κ : Type} [DecidableEq κ] (keyFn : α → κ)
    (refKeyFn : β → κ) (merge : α → β → γ) (kk : Bool) (bs : Option Nat)
    (source : List α) (ref : List β)
    (h : (iterKeyZipRun keyFn refKeyFn merge kk bs source ref).error = none) :
    (∃ δ : List β,
      (iterKeyZipRun keyFn refKeyFn merge kk bs source ref).matched = δ ∧
      δ.length = source.length ∧
      (iterKeyZipRun keyFn refKeyFn merge kk bs source ref).outputs
      = List.zipWith (fun a b => if kk then ZipOut.keyed (keyFn a) (merge a b)
          else ZipOut.plain (merge a b)) source δ)
    ∧ (iterKeyZipRun Prod.fst Prod.fst (fun (a b : Char × Nat) => a.2 + b.2) false
        (some 10000) [('a', 100), ('b', 200), ('c', 300)]
        [('a', 1), ('b', 2), ('c', 3), ('d', 4)]).outputs
      = [ZipOut.plain 101, ZipOut.plain 202, ZipOut.plain 303]
    ∧ (iterKeyZipRun Prod.fst Prod.fst (fun (a b : Char × Nat) => a.2 + b.2) false
        (some 10000) [('a', 100), ('b', 200), ('c', 300)]
        [('a', 1), ('b', 2), ('c', 3), ('d', 4)]).error = none := by
  refine ⟨?_, by decide, by decide⟩
  have h' : (zipLoop keyFn refKeyFn merge kk bs source ref [] true 0 [] [] 0 []
      []).error = none := h
  rcases zipLoop_outputs keyFn refKeyFn merge kk bs source ref [] true 0 [] [] 0 [] [] h'
    with ⟨δ, h1, h2, h3⟩
  exact ⟨δ, by simpa using h1, h2, by simpa using h3⟩

theorem claim_C7_thm_witness :
    (iterKeyZipRun (Prod.fst : Char × Nat → Char) Prod.fst
        (fun (a b : Char × Nat) => a.2 + b.2) false (some 10000)
        [('a', 100), ('b', 200), ('c', 300)]
        [('a', 1), ('b', 2), ('c', 3), ('d', 4)]).error = none
    ∧ (iterKeyZipRun (Prod.fst : Char × Nat → Char) Prod.fst
        (fun (a b : Char × Nat) => a.2 + b.2) false (some 10000)
        [('a', 100), ('b', 200), ('c', 300)]
        [('a', 1), ('b', 2), ('c', 3), ('d', 4)]).outputs
      = [ZipOut.plain 101, ZipOut.plain 202, ZipOut.plain 303] :=
  ⟨by decide,
    (claim_C7_thm Prod.fst Prod.fst (fun (a b : Char × Nat) => a.2 + b.2) false
      (some 10000) [('a', 100), ('b', 200), ('c', 300)]
      [('a', 1), ('b', 2), ('c', 3), ('d', 4)] (by decide)).2.1⟩

/-- C8: the round-robin splitter's reported per-branch length is computed
analytically from the source length alone as `n / N` plus one for branch
indices below `n % N`, and equals the number of items routed to that branch;
for N = 2 over range(5), branch 0 is [0,2,4] with length 3 and branch 1 is
[1,3] with length 2. -/
theorem claim_C8_thm :
    (∀ n N i : Nat, roundRobinGetLength n N i = n / N + (if i < n % N then 1 else 0))
    ∧ (∀ (α : Type) (source : List α) (N i : Nat), 0 < N → i < N →
        (roundRobinBranch source N i).length = roundRobinGetLength source.length N i)
    ∧ roundRobinBranch [0, 1, 2, 3, 4] 2 0 = [0, 2, 4]
    ∧ roundRobinBranch [0, 1, 2, 3, 4] 2 1 = [1, 3]
    ∧ roundRobinGetLength 5 2 0 = 3
    ∧ roundRobinGetLength 5 2 1 = 2 := by
  refine ⟨?_, fun α source N i hN hi => roundRobinBranch_length source N i hN hi,
    by decide, by decide, rfl, rfl⟩
  intro n N i
  unfold roundRobinGetLength
  have hsub : n - n / N * N = n % N := by
    have hq := Nat.div_add_mod n N
    rw [Nat.mul_comm]
    omega
  simp only [gt_iff_lt]
  rw [hsub]
  split_ifs with h <;> omega

theorem claim_C8_thm_witness :
    0 < 2 ∧ (0 : Nat) < 2
    ∧ (roundRobinBranch ([0, 1, 2, 3, 4] : List Nat) 2 0).length
      = roundRobinGetLength ([0, 1, 2, 3, 4] : List Nat).length 2 0 :=
  ⟨by decide, by decide,
    claim_C8_thm.2.1 Nat [0, 1, 2, 3, 4] 2 0 (by decide) (by decide)⟩

/-- C9: the lookup stream joiner performs one direct lookup per primary item,
yielding the merge on success; a missing key fails immediately with a lookup
error carrying the item and key, after yielding only the preceding items; for
primary [(a,1),(b,2),(c,3)] against map {a:100,b:200,c:300,d:400} with merge
= (key, sum of values) the output is [(a,101),(b,202),(c,303)]. -/
theorem claim_C9_thm {α μ γ κ : Type} [DecidableEq κ] [Inhabited μ] (keyFn : α → κ)
    (merge : α → μ → γ) (kk : Bool) (m : List (κ × μ)) (source : List α)
    (h : ∀ a ∈ source, (mapGetItem m (keyFn a)).isSome) :
    ((mapZipRun keyFn merge kk m source).error = none
      ∧ (mapZipRun keyFn merge kk m source).outputs
        = source.map (fun a =>
            if kk then ZipOut.keyed (keyFn a)
              (merge a ((mapGetItem m (keyFn a)).getD default))
            else ZipOut.plain (merge a ((mapGetItem m (keyFn a)).getD default))))
    ∧ (∀ (pre : List α) (a : α) (suf : List α),
        (∀ b ∈ pre, (mapGetItem m (keyFn b)).isSome) →
        mapGetItem m (keyFn a) = none →
        (mapZipRun keyFn merge kk m (pre ++ a :: suf)).error = some (a, keyFn a)
        ∧ (mapZipRun keyFn merge kk m (pre ++ a :: suf)).outputs.length = pre.length)
    ∧ (mapZipRun (Prod.fst : Char × Nat → Char)
        (fun (t : Char × Nat) (v : Nat) => (t.1, t.2 + v)) false
        [('a', 100), ('b', 200), ('c', 300), ('d', 400)]
        [('a', 1), ('b', 2), ('c', 3)]).outputs
      = [ZipOut.plain ('a', 101), ZipOut.plain ('b', 202), ZipOut.plain ('c', 303)]
    ∧ (mapZipRun (Prod.fst : Char × Nat → Char)
        (fun (t : Char × Nat) (v : Nat) => (t.1, t.2 + v)) false
        [('a', 100), ('b', 200), ('c', 300), ('d', 400)]
        [('a', 1), ('b', 2), ('c', 3)]).error = none
    ∧ (mapZipRun (Prod.fst : Char × Nat → Char)
        (fun (t : Char × Nat) (v : Nat) => (t.1, t.2 + v)) false
        [('a', 100), ('b', 200), ('c', 300), ('d', 400)]
        [('e', 5)]).error = some (('e', 5), 'e') := by
  refine ⟨mapZipLoop_ok keyFn merge kk m source [] h, ?_, by decide, by decide, by decide⟩
  intro pre a suf houts hmiss
  rcases mapZipLoop_err keyFn merge kk m pre a suf [] houts hmiss with ⟨herr, hout⟩
  exact ⟨herr, by simp [mapZipRun, hout]⟩

theorem claim_C9_thm_witness :
    (∀ a ∈ ([('a', 1), ('b', 2), ('c', 3)] : List (Char × Nat)),
      (mapGetItem [('a', 100), ('b', 200), ('c', 300), ('d', 400)]
        (Prod.fst a)).isSome)
    ∧ (mapZipRun (Prod.fst : Char × Nat → Char)
        (fun (t : Char × Nat) (v : Nat) => (t.1, t.2 + v)) false
        [('a', 100), ('b', 200), ('c', 300), ('d', 400)]
        [('a', 1), ('b', 2), ('c', 3)]).error = none :=
  ⟨by decide,
    (claim_C9_thm Prod.fst (fun (t : Char × Nat) (v : Nat) => (t.1, t.2 + v)) false
      [('a', 100), ('b', 200), ('c', 300), ('d', 400)]
      [('a', 1), ('b', 2), ('c', 3)] (by decide)).1.1⟩

/-- C10: both joiners report their length as the length of the primary
stream alone, independent of the secondary data — even on inputs where
iteration fails before yielding that many items. -/
theorem claim_C10_thm :
    (∀ (α : Type) (source : List α), iterKeyZipLen source = source.length)
    ∧ (∀ (α : Type) (source : List α), mapZipLen source = source.length)
    ∧ iterKeyZipLen ([0, 1] : List Nat) = 2
    ∧ (iterKeyZipRun (fun x : Nat => x) (fun x => x) (fun a b : Nat => a + b) false
        (some 10000) [0, 1] [0]).error = some ZipError.bufferError
    ∧ (iterKeyZipRun (fun x : Nat => x) (fun x => x) (fun a b : Nat => a + b) false
        (some 10000) [0, 1] [0]).outputs.length = 1
    ∧ mapZipLen ([('a', 1), ('e', 9)] : List (Char × Nat)) = 2
    ∧ (mapZipRun (Prod.fst : Char × Nat → Char)
        (fun (t : Char × Nat) (v : Nat) => t.2 + v) false [('a', 100)]
        [('a', 1), ('e', 9)]).error = some (('e', 9), 'e')
    ∧ (mapZipRun (Prod.fst : Char × Nat → Char)
        (fun (t : Char × Nat) (v : Nat) => t.2 + v) false [('a', 100)]
        [('a', 1), ('e', 9)]).outputs.length = 1 :=
  ⟨fun _ _ => rfl, fun _ _ => rfl, rfl, by decide, by decide, rfl, by decide, by decide⟩

end ClaimTheorems

end TorchData
